import Mathlib

/-!
Verification of the graph orchestration engine (srohatgi/graph).

This file gives a shallow embedding of the repository's core components
and settles the frozen claims about them:

* the cancellable bounded-retry polling primitive (`waiter.go`:
  `Waiter.WaitWithContext`, `sleepWithContext`);
* the directed graph container and Kahn-style topological sorter
  (the `graph`/`sort` pair of the `Lib` variant);
* the execution engine (`check`, `copyValue`, `execute`, `createSync`,
  `reverse`, `deleteSync`, `Lib.Sync` of the `Lib` variant).

Go `int` values are modelled as `Int` where a value can be compared
against a non-positive bound, and as `Nat` where the source only ever
counts downwards from a non-negative quantity.  Nondeterminism coming
from Go map iteration order is exposed as an explicit `pick` parameter
where it is observable (the sorter's choice among zero-in-degree
vertices); everywhere else the claims' observables are independent of
the iteration order, which is noted at the definition site.  A Go
runtime panic is modelled as an explicit non-`ok` result constructor.
-/

/-! ## Waiter (src/waiter.go) -/

/-- A waiter over observations of type alpha, mirroring `Waiter` of waiter.go.
`action n` is the observation produced by the n-th invocation of
`ExecuteAction` (1-based); `sleep n` is the outcome of the inter-attempt
sleep after attempt `n`: `none` when the timer fires first, and
`some e` when the context is cancelled first, `e` being the context's
own error (`ctx.Err()`).  `maxAttempts` is a Go `int`, hence `Int`. -/
structure Waiter (α : Type) where
  acceptors : List (α → Bool)
  maxAttempts : Int
  action : Nat → α
  sleep : Nat → Option String

/-- Outcome of `WaitWithContext`: `ret calls err` is a return after
`calls` invocations of the action (`err = none` means success), while
`spin calls` means the modelling fuel ran out with the loop still
running (the Go loop has no bound of its own). -/
inductive WaitOut where
  | ret (calls : Nat) (err : Option String)
  | spin (calls : Nat)
deriving DecidableEq, Repr

/-- The error message built by `fmt.Errorf("exceeded wait attempts")`. -/
def exceededWaitAttempts : String := "exceeded wait attempts"

/-- The error message built by `fmt.Errorf("waiter context canceled")`.
Note that the Go code discards the error returned by
`sleepWithContext` (the context's own error) and substitutes this
constant. -/
def waiterContextCanceled : String := "waiter context canceled"

/-- The body of `Waiter.WaitWithContext`, one fuel unit per loop
iteration.  Mirrors waiter.go lines 44-76: invoke the action, test the
acceptors, break out of the loop when `attempt == w.MaxAttempts`
(returning the exhaustion error), otherwise sleep and either continue
or return the fixed cancellation message. -/
def waitGo (w : Waiter α) : Nat → Nat → Nat → WaitOut
  | 0, _, calls => .spin calls
  | fuel + 1, attempt, calls =>
    let i := w.action attempt
    let calls := calls + 1
    if w.acceptors.any (fun a => a i) then
      .ret calls none
    else if (attempt : Int) = w.maxAttempts then
      .ret calls (some exceededWaitAttempts)
    else
      match w.sleep attempt with
      | some _ => .ret calls (some waiterContextCanceled)
      | none => waitGo w fuel (attempt + 1) calls

/-- `Waiter.WaitWithContext`: the attempt counter starts at 1. -/
def WaitWithContext (w : Waiter α) (fuel : Nat) : WaitOut :=
  waitGo w fuel 1 0

/-! ### Waiter lemmas -/

/-- Once the attempt counter is at least 1, a waiter whose `maxAttempts`
is non-positive can never take the `attempt == w.MaxAttempts` branch,
so the loop never returns the exhaustion error. -/
theorem waitGo_ret_no_exceeded (w : Waiter α) (hmax : w.maxAttempts ≤ 0) :
    ∀ fuel attempt calls c err, 1 ≤ attempt →
      waitGo w fuel attempt calls = .ret c err → err ≠ some exceededWaitAttempts := by
  intro fuel
  induction fuel with
  | zero => intro attempt calls c err _ h; simp [waitGo] at h
  | succ n ih =>
    intro attempt calls c err hatt h
    rw [waitGo] at h
    by_cases hm : w.acceptors.any (fun a => a (w.action attempt)) = true
    · simp only [hm, if_pos] at h
      cases h; simp
    · have hne : ¬ ((attempt : Int) = w.maxAttempts) := by
        intro he
        have : (1 : Int) ≤ (attempt : Int) := by exact_mod_cast hatt
        omega
      simp only [hm, if_neg, hne, if_false, ite_false] at h
      cases hs : w.sleep attempt with
      | some e =>
        rw [hs] at h
        cases h
        intro hc
        simp only [Option.some.injEq] at hc
        exact absurd hc (by decide)
      | none =>
        rw [hs] at h
        exact ih (attempt + 1) (calls + 1) c err (by omega) h

/-- With no matching acceptor and no cancellation, a waiter whose
`maxAttempts` is non-positive consumes every unit of fuel: the loop
keeps invoking the action unboundedly. -/
theorem waitGo_spin (w : Waiter α) (hmax : w.maxAttempts ≤ 0)
    (hnomatch : ∀ n, ∀ a ∈ w.acceptors, a (w.action n) = false)
    (hsleep : ∀ n, w.sleep n = none) :
    ∀ fuel attempt calls, 1 ≤ attempt →
      waitGo w fuel attempt calls = .spin (calls + fuel) := by
  intro fuel
  induction fuel with
  | zero => intro attempt calls _; simp [waitGo]
  | succ n ih =>
    intro attempt calls hatt
    rw [waitGo]
    have hm : w.acceptors.any (fun a => a (w.action attempt)) = false := by
      rw [List.any_eq_false]
      intro a ha
      simp [hnomatch attempt a ha]
    have hne : ¬ ((attempt : Int) = w.maxAttempts) := by
      intro he
      have : (1 : Int) ≤ (attempt : Int) := by exact_mod_cast hatt
      omega
    simp only [hm, Bool.false_eq_true, if_false, ite_false, hne, hsleep attempt]
    rw [ih (attempt + 1) (calls + 1) (by omega)]
    congr 1
    omega

/-- Claim C10: a waiter with non-positive `MaxAttempts` (including the
zero value) never returns the "exceeded wait attempts" exhaustion
error, because the attempt counter starts at 1 and the bound is tested
only by equality; with no match and no cancellation it keeps invoking
the action for as long as the loop runs (it consumes any amount of
fuel, performing one action invocation per iteration). -/
theorem waiter_nonpositive_maxAttempts_no_exhaustion (w : Waiter α)
    (hmax : w.maxAttempts ≤ 0) :
    (∀ fuel calls err, WaitWithContext w fuel = .ret calls err →
        err ≠ some exceededWaitAttempts)
    ∧ ((∀ n, ∀ a ∈ w.acceptors, a (w.action n) = false) →
       (∀ n, w.sleep n = none) →
        ∀ fuel, WaitWithContext w fuel = .spin fuel) := by
  constructor
  · intro fuel calls err h
    exact waitGo_ret_no_exceeded w hmax fuel 1 0 calls err (by omega) h
  · intro hnomatch hsleep fuel
    have := waitGo_spin w hmax hnomatch hsleep fuel 1 0 (by omega)
    simpa [WaitWithContext] using this

/-- A concrete waiter with the zero-value `MaxAttempts = 0`: no
acceptors, constant action, never-cancelled sleeps. -/
def waiterZero : Waiter Unit :=
  ⟨[], 0, fun _ => (), fun _ => none⟩

/-- Witness for claim C10 at `waiterZero` with fuel 4: the loop is
still running after 4 iterations (4 action invocations), having
returned no exhaustion error. -/
theorem waiter_nonpositive_maxAttempts_no_exhaustion_witness :
    WaitWithContext waiterZero 4 = .spin 4 :=
  (waiter_nonpositive_maxAttempts_no_exhaustion waiterZero (by decide)).2
    (fun _ a ha => absurd ha (List.not_mem_nil a)) (fun _ => rfl) 4

/-- A waiter with `MaxAttempts = 3`, no acceptors (so no observation is
ever matched), and a context whose cancellation fires during the first
inter-attempt delay, delivering the context error "context canceled"
(the message of Go's `context.Canceled`). -/
def waiterCancelCex : Waiter Unit :=
  ⟨[], 3, fun _ => (), fun n => if n = 1 then some "context canceled" else none⟩

/-- Counterexample for claim C9: when cancellation fires during the
first delay, `WaitWithContext` does return after exactly one action
invocation, but it returns the fixed error "waiter context canceled"
built by `fmt.Errorf`, not the cancellation's own error (`ctx.Err()`,
here "context canceled"): the claim's "returns the cancellation's
error" is false at this input. -/
theorem waiter_cancellation_error_cex :
    WaitWithContext waiterCancelCex 10 = .ret 1 (some waiterContextCanceled)
    ∧ (some waiterContextCanceled : Option String) ≠ some "context canceled" := by
  decide

/-- Claim C9 (amended): for a waiter with `MaxAttempts = 3` whose
action always yields an observation matched by no acceptor, the action
is invoked exactly 3 times and the result is the "exceeded wait
attempts" error; if instead cancellation fires during the first
inter-attempt delay, the action is invoked exactly once and the result
is the fixed "waiter context canceled" error (the context's own error
is not propagated), with no further attempts run. -/
theorem waiter_three_attempts (w : Waiter α)
    (hmax : w.maxAttempts = 3)
    (hnomatch : ∀ n, ∀ a ∈ w.acceptors, a (w.action n) = false) :
    ((∀ n, w.sleep n = none) → ∀ fuel, 3 ≤ fuel →
        WaitWithContext w fuel = .ret 3 (some exceededWaitAttempts))
    ∧ (∀ e, w.sleep 1 = some e → ∀ fuel, 1 ≤ fuel →
        WaitWithContext w fuel = .ret 1 (some waiterContextCanceled)) := by
  have hany : ∀ n, (w.acceptors.any (fun a => a (w.action n))) = false := by
    intro n
    rw [List.any_eq_false]
    intro a ha
    simp [hnomatch n a ha]
  constructor
  · intro hsleep fuel hf
    obtain ⟨k, rfl⟩ : ∃ k, fuel = k + 3 := ⟨fuel - 3, by omega⟩
    show waitGo w (k + 3) 1 0 = _
    simp [waitGo, hany, hmax, hsleep]
  · intro e he fuel hf
    obtain ⟨k, rfl⟩ : ∃ k, fuel = k + 1 := ⟨fuel - 1, by omega⟩
    show waitGo w (k + 1) 1 0 = _
    simp [waitGo, hany, hmax, he]

/-- A waiter with `MaxAttempts = 3`, one never-matching acceptor and
never-cancelled sleeps. -/
def waiterExhaust : Waiter Unit :=
  ⟨[fun _ => false], 3, fun _ => (), fun _ => none⟩

/-- A waiter with `MaxAttempts = 3`, one never-matching acceptor, whose
context is cancelled during the first inter-attempt delay. -/
def waiterCancelled : Waiter Unit :=
  ⟨[fun _ => false], 3, fun _ => (), fun n => if n = 1 then some "context canceled" else none⟩

/-- Witness for claim C9 at two concrete waiters: exactly 3 invocations
and the exhaustion error without cancellation; exactly 1 invocation and
the fixed cancellation message when the first delay is cancelled. -/
theorem waiter_three_attempts_witness :
    WaitWithContext waiterExhaust 7 = .ret 3 (some exceededWaitAttempts)
    ∧ WaitWithContext waiterCancelled 7 = .ret 1 (some waiterContextCanceled) :=
  ⟨(waiter_three_attempts waiterExhaust rfl
      (fun _ a ha => by rw [List.mem_singleton.mp ha])).1 (fun _ => rfl) 7 (by omega),
   (waiter_three_attempts waiterCancelled rfl
      (fun _ a ha => by rw [List.mem_singleton.mp ha])).2 "context canceled" rfl 7 (by omega)⟩

/-! ## Graph container (the `graph` type of the `Lib` variant) and
Kahn-style topological sort (`sort`). -/

/-- The `graph` data type: vertex count `v` and adjacency lists `adj`
(one list per vertex, in vertex order). -/
structure Graph where
  v : Nat
  adj : List (List Nat)
deriving Repr, DecidableEq

/-- `newGraph(v)`: `v` vertices, empty adjacency lists. -/
def newGraph (n : Nat) : Graph := ⟨n, List.replicate n []⟩

/-- `adjascent(v1)` returns `g.adj[v1]`.  Out-of-range access panics in
Go; the only negative index the sorter can produce is handled
explicitly there (see `sortLoop`), and all other accesses made by the
library are in range, so the default `[]` branch is unreachable in the
modelled flows. -/
def adjascent (g : Graph) (v1 : Nat) : List Nat := g.adj.getD v1 []

/-- `addEdge(v1, w1)` appends `w1` to `v1`'s adjacency list. -/
def addEdge (g : Graph) (v1 w1 : Nat) : Graph :=
  { g with adj := g.adj.set v1 (adjascent g v1 ++ [w1]) }

/-- Well-formedness of a graph as produced by `newGraph` plus in-range
`addEdge` calls: one adjacency list per vertex, all edge targets in
range. -/
def Graph.WF (g : Graph) : Prop :=
  g.adj.length = g.v ∧ ∀ l ∈ g.adj, ∀ t ∈ l, t < g.v

instance (g : Graph) : Decidable g.WF :=
  inferInstanceAs (Decidable (g.adj.length = g.v ∧ ∀ l ∈ g.adj, ∀ t ∈ l, t < g.v))

/-- Edge relation of the graph: `w` occurs in `v1`'s adjacency list. -/
def Edge (g : Graph) (u w : Nat) : Prop := w ∈ adjascent g u

instance (g : Graph) (u w : Nat) : Decidable (Edge g u w) :=
  inferInstanceAs (Decidable (w ∈ adjascent g u))

/-- A graph is acyclic when no vertex reaches itself through a
non-empty edge path. -/
def Acyclic (g : Graph) : Prop := ∀ x, ¬ Relation.TransGen (Edge g) x x

/-- Both endpoints of an edge of a well-formed graph are in range. -/
theorem Edge.lt {g : Graph} (hwf : g.WF) {u w : Nat} (h : Edge g u w) :
    u < g.v ∧ w < g.v := by
  unfold Edge adjascent at h
  by_cases hu : u < g.adj.length
  · have h1 : g.adj.get? u = some (g.adj.get ⟨u, hu⟩) := List.get?_eq_get hu
    have hmem : g.adj.getD u [] ∈ g.adj := by
      unfold List.getD
      rw [h1]
      exact List.get_mem _ _ _
    exact ⟨hwf.1 ▸ hu, hwf.2 _ hmem w h⟩
  · have h2 : g.adj.get? u = none := List.get?_eq_none.mpr (by omega)
    unfold List.getD at h
    rw [h2] at h
    exact absurd h (List.not_mem_nil w)

/-- In-degree of `x` restricted to the sources listed in `S`,
mirroring the counting loop at the top of `sort`: the number of edges
into `x` from vertices `w ∈ S` with `w ≠ x` (the Go loop skips
`w == v`), counted with multiplicity, as a Go `int`. -/
def inDegOn (g : Graph) (S : List Nat) (x : Nat) : Int :=
  ((S.filter (fun w => w ≠ x)).map (fun w => ((adjascent g w).count x : Int))).sum

/-- The initial `neighbours` map of `sort`: an entry for every vertex,
holding its in-degree.  Association-list representation of the Go map;
the list order is representation only (Go map iteration order is
arbitrary, which the `pick` parameter of `sortLoop` accounts for). -/
def initNeighbours (g : Graph) : List (Nat × Int) :=
  (List.range g.v).map (fun x => (x, inDegOn g (List.range g.v) x))

/-- Keys of the `neighbours` association list. -/
def keysOf (ns : List (Nat × Int)) : List Nat := ns.map Prod.fst

/-- `neighbours[w]--` with exact Go map semantics: decrement the entry
when present; otherwise insert the key with value `0 - 1 = -1` (reading
a missing key yields the zero value). -/
def decKey (ns : List (Nat × Int)) (w : Nat) : List (Nat × Int) :=
  if w ∈ keysOf ns then
    ns.map (fun p => if p.1 = w then (p.1, p.2 - 1) else p)
  else ns ++ [(w, -1)]

/-- The `for _, w := range g.adjascent(toRemove) do neighbours[w]--` loop. -/
def decAll (ns : List (Nat × Int)) (l : List Nat) : List (Nat × Int) :=
  l.foldl decKey ns

/-- `delete(neighbours, t)`. -/
def eraseKey (ns : List (Nat × Int)) (t : Nat) : List (Nat × Int) :=
  ns.filter (fun p => p.1 ≠ t)

/-- The `for v, n := range neighbours { if n == 0 { toRemove = v; break } }`
scan.  Go map iteration order is arbitrary, so when at least one entry
has count 0 any such entry can be chosen; the ambient `pick` oracle
resolves the choice (a `pick` value that is not a zero-count key is
sanitised to the first zero-count entry, which is itself one of the
behaviours Go can exhibit).  When no entry has count 0, `toRemove`
stays `-1` and the subsequent `g.adjascent(-1)` panics; this is
reported as `none`. -/
def zeroChoice (pick : List (Nat × Int) → Nat) (ns : List (Nat × Int)) : Option Nat :=
  match ns.find? (fun p => p.2 = 0) with
  | none => none
  | some p => if ns.any (fun q => decide (q.1 = pick ns ∧ q.2 = 0)) then some (pick ns) else some p.1

/-- Result of `sort`: a returned order, a runtime panic
(`g.adj[-1]` out of range), or exhaustion of the modelling fuel (which
never happens from the initial state, see the lemmas below). -/
inductive SortOut where
  | ok (l : List Nat)
  | panicked
  | spin
deriving DecidableEq, Repr

/-- The main removal loop of `sort`, one fuel unit per iteration:
while `neighbours` is non-empty, choose a zero-in-degree vertex
(panicking when there is none), decrement its successors, delete it
and append it to the output. -/
def sortLoop (g : Graph) (pick : List (Nat × Int) → Nat) :
    Nat → List (Nat × Int) → List Nat → SortOut
  | 0, ns, acc => if ns.isEmpty then .ok acc else .spin
  | fuel + 1, ns, acc =>
    if ns.isEmpty then .ok acc
    else
      match zeroChoice pick ns with
      | none => .panicked
      | some t => sortLoop g pick fuel (eraseKey (decAll ns (adjascent g t)) t) (acc ++ [t])

/-- `sort(g)`: run the removal loop from the full in-degree map.  The
number of loop iterations from this state is at most `g.v`, so `g.v`
units of fuel are exact (established by the lemmas below). -/
def sort (g : Graph) (pick : List (Nat × Int) → Nat) : SortOut :=
  sortLoop g pick g.v (initNeighbours g) []

/-- The invariant of the removal loop: keys are distinct in-range
vertices, every entry holds the in-degree of its key restricted to the
remaining keys, and an in-range vertex that has been removed has no
remaining in-edges from the surviving keys. -/
def SortInv (g : Graph) (ns : List (Nat × Int)) : Prop :=
  (keysOf ns).Nodup
  ∧ (∀ p ∈ ns, p.1 < g.v ∧ p.2 = inDegOn g (keysOf ns) p.1)
  ∧ (∀ x, x < g.v → x ∉ keysOf ns → inDegOn g (keysOf ns) x = 0)

/-! ### List auxiliaries for the sorter proofs -/

theorem sum_le_sum_sublist {l1 l2 : List Int} (h : l1.Sublist l2)
    (h2 : ∀ x ∈ l2, 0 ≤ x) : l1.sum ≤ l2.sum := by
  induction h with
  | slnil => simp
  | cons a h ih =>
    have := ih (fun x hx => h2 x (List.mem_cons_of_mem a hx))
    have ha := h2 a (List.mem_cons_self a _)
    simp only [List.sum_cons]
    omega
  | cons₂ a h ih =>
    have := ih (fun x hx => h2 x (List.mem_cons_of_mem a hx))
    simp only [List.sum_cons]
    omega

theorem filter_swap {α} (p q : α → Bool) (l : List α) :
    (l.filter p).filter q = (l.filter q).filter p := by
  induction l with
  | nil => rfl
  | cons a t ih =>
    by_cases hp : p a <;> by_cases hq : q a <;>
      simp [List.filter_cons, hp, hq, ih]

theorem filter_ne_of_not_mem {L : List Nat} {t : Nat} (h : t ∉ L) :
    L.filter (fun w => w ≠ t) = L := by
  rw [List.filter_eq_self]
  intro w hw
  exact decide_eq_true (fun he => h (he ▸ hw))

theorem sum_map_filter_ne (f : Nat → Int) {L : List Nat} (t : Nat)
    (hnd : L.Nodup) (ht : t ∈ L) :
    (L.map f).sum = f t + ((L.filter (fun w => w ≠ t)).map f).sum := by
  induction L with
  | nil => cases ht
  | cons a Lrest ih =>
    rcases List.mem_cons.mp ht with heq | htl
    · subst heq
      have hnotin : t ∉ Lrest := (List.nodup_cons.mp hnd).1
      rw [List.filter_cons, if_neg (by simp), filter_ne_of_not_mem hnotin]
      simp
    · have ha : a ≠ t := fun he => (List.nodup_cons.mp hnd).1 (he ▸ htl)
      have ihh := ih (List.nodup_cons.mp hnd).2 htl
      rw [List.filter_cons, if_pos (decide_eq_true ha)]
      simp only [List.map_cons, List.sum_cons, ihh]
      ring

theorem inDegOn_nonneg (g : Graph) (S : List Nat) (x : Nat) :
    0 ≤ inDegOn g S x := by
  unfold inDegOn
  apply List.sum_nonneg
  intro a ha
  obtain ⟨w, _, rfl⟩ := List.mem_map.mp ha
  exact Int.ofNat_nonneg _

theorem inDegOn_pos (g : Graph) {S : List Nat} {w x : Nat}
    (hw : w ∈ S) (hwx : w ≠ x) (hx : x ∈ adjascent g w) :
    0 < inDegOn g S x := by
  unfold inDegOn
  have h1 : w ∈ S.filter (fun y => y ≠ x) := List.mem_filter.mpr ⟨hw, by simp [hwx]⟩
  have h2 : ((adjascent g w).count x : Int) ∈
      (S.filter (fun y => y ≠ x)).map (fun y => ((adjascent g y).count x : Int)) :=
    List.mem_map_of_mem _ h1
  have h3 : ((adjascent g w).count x : Int) ≤ _ :=
    List.single_le_sum (fun a ha => by
      obtain ⟨y, _, rfl⟩ := List.mem_map.mp ha
      exact Int.ofNat_nonneg _) _ h2
  have h4 : 0 < (adjascent g w).count x := List.count_pos_iff.mpr hx
  omega

theorem inDegOn_split (g : Graph) {S : List Nat} (hnd : S.Nodup) {t x : Nat}
    (ht : t ∈ S) (hne : t ≠ x) :
    inDegOn g S x
      = ((adjascent g t).count x : Int) + inDegOn g (S.filter (fun w => w ≠ t)) x := by
  unfold inDegOn
  have h1 : t ∈ S.filter (fun w => w ≠ x) := List.mem_filter.mpr ⟨ht, by simp [hne]⟩
  rw [sum_map_filter_ne _ t (hnd.filter _) h1, filter_swap]

theorem inDegOn_filter_le (g : Graph) (S : List Nat) (p : Nat → Bool) (x : Nat) :
    inDegOn g (S.filter p) x ≤ inDegOn g S x := by
  unfold inDegOn
  apply sum_le_sum_sublist
  · apply List.Sublist.map
    rw [filter_swap]
    exact List.filter_sublist _
  · intro a ha
    obtain ⟨y, _, rfl⟩ := List.mem_map.mp ha
    exact Int.ofNat_nonneg _

/-! ### Step lemmas for the sorter -/

theorem keysOf_map_snd (ns : List (Nat × Int)) (h : Nat × Int → Int) :
    keysOf (ns.map (fun p => (p.1, h p))) = keysOf ns := by
  unfold keysOf
  rw [List.map_map]
  congr 1

theorem decAll_spec (l : List Nat) :
    ∀ (ns : List (Nat × Int)), (∀ w ∈ l, w ∈ keysOf ns) →
    decAll ns l = ns.map (fun p => (p.1, p.2 - (l.count p.1 : Int))) := by
  induction l with
  | nil =>
    intro ns _
    simp [decAll]
  | cons w rest ih =>
    intro ns h
    have hw : w ∈ keysOf ns := h w (List.mem_cons_self w rest)
    have hstep : decKey ns w = ns.map (fun p => if p.1 = w then (p.1, p.2 - 1) else p) := by
      unfold decKey
      rw [if_pos hw]
    have hkeys : keysOf (decKey ns w) = keysOf ns := by
      rw [hstep]
      have : (fun p : Nat × Int => if p.1 = w then (p.1, p.2 - 1) else p)
           = (fun p : Nat × Int => (p.1, if p.1 = w then p.2 - 1 else p.2)) := by
        funext p
        by_cases hp : p.1 = w <;> simp [hp]
      rw [this, keysOf_map_snd]
    have hrest : ∀ x ∈ rest, x ∈ keysOf (decKey ns w) := by
      intro x hx
      rw [hkeys]
      exact h x (List.mem_cons_of_mem w hx)
    unfold decAll
    rw [List.foldl_cons]
    have := ih (decKey ns w) hrest
    unfold decAll at this
    rw [this, hstep, List.map_map]
    apply List.map_congr_left
    intro p _
    by_cases hp : p.1 = w
    · simp only [Function.comp_apply, hp, if_true, List.count_cons_self]
      have : p.2 - 1 - (List.count w rest : Int) = p.2 - ((List.count w rest : Int) + 1) := by ring
      rw [Prod.mk.injEq]
      refine ⟨rfl, ?_⟩
      push_cast
      ring
    · simp only [Function.comp_apply, hp, if_false, ite_false]
      rw [List.count_cons_of_ne hp]

theorem keysOf_eraseKey (ns : List (Nat × Int)) (t : Nat) :
    keysOf (eraseKey ns t) = (keysOf ns).filter (fun x => x ≠ t) := by
  unfold keysOf eraseKey
  induction ns with
  | nil => rfl
  | cons p rest ih =>
    simp only [List.filter_cons, List.map_cons]
    by_cases hp : p.1 = t
    · rw [if_neg (by simp [hp]), if_neg (by simp [hp])]
      exact ih
    · rw [if_pos (decide_eq_true hp), if_pos (decide_eq_true hp), List.map_cons, ih]

theorem length_filter_ne_of_nodup {L : List Nat} {t : Nat}
    (hnd : L.Nodup) (ht : t ∈ L) :
    (L.filter (fun x => x ≠ t)).length + 1 = L.length := by
  induction L with
  | nil => cases ht
  | cons a rest ih =>
    rcases List.mem_cons.mp ht with heq | htl
    · subst heq
      rw [List.filter_cons, if_neg (by simp),
        filter_ne_of_not_mem (List.nodup_cons.mp hnd).1]
      simp
    · have ha : a ≠ t := fun he => (List.nodup_cons.mp hnd).1 (he ▸ htl)
      rw [List.filter_cons, if_pos (decide_eq_true ha)]
      have := ih (List.nodup_cons.mp hnd).2 htl
      simp only [List.length_cons]
      omega

theorem perm_cons_filter_ne {L : List Nat} {t : Nat}
    (hnd : L.Nodup) (ht : t ∈ L) :
    (t :: L.filter (fun x => x ≠ t)).Perm L := by
  have h1 : L.Perm (t :: L.erase t) := List.perm_cons_erase ht
  have h2 : L.erase t = L.filter (fun x => x ≠ t) := by
    rw [List.Nodup.erase_eq_filter hnd]
    congr 1
    funext x
    by_cases hx : x = t <;> simp [hx]
  rw [← h2]
  exact h1.symm

theorem zeroChoice_some_mem {pick : List (Nat × Int) → Nat}
    {ns : List (Nat × Int)} {t : Nat}
    (h : zeroChoice pick ns = some t) : (t, 0) ∈ ns := by
  unfold zeroChoice at h
  cases hf : ns.find? (fun p => p.2 = 0) with
  | none => rw [hf] at h; cases h
  | some p =>
    rw [hf] at h
    dsimp only at h
    by_cases hany : ns.any (fun q => decide (q.1 = pick ns ∧ q.2 = 0))
    · rw [if_pos hany] at h
      cases h
      obtain ⟨q, hq, hq2⟩ := List.any_eq_true.mp hany
      obtain ⟨h1, h2⟩ := of_decide_eq_true hq2
      have hqe : q = (pick ns, (0 : Int)) := by
        rw [← h1, ← h2]
      exact hqe ▸ hq
    · rw [if_neg hany] at h
      cases h
      have hfind := List.find?_some hf
      have hp2 : p.2 = 0 := of_decide_eq_true hfind
      have hpmem := List.mem_of_find?_eq_some hf
      have hpe : p = (p.1, (0 : Int)) := by rw [← hp2]
      exact hpe ▸ hpmem

theorem zeroChoice_eq_none {pick : List (Nat × Int) → Nat}
    {ns : List (Nat × Int)} (h : ∀ p ∈ ns, p.2 ≠ 0) :
    zeroChoice pick ns = none := by
  unfold zeroChoice
  have hf : ns.find? (fun p => p.2 = 0) = none := by
    rw [List.find?_eq_none]
    intro p hp
    simp [h p hp]
  rw [hf]

theorem zeroChoice_isSome {pick : List (Nat × Int) → Nat}
    {ns : List (Nat × Int)} {p : Nat × Int} (hp : p ∈ ns) (hp0 : p.2 = 0) :
    ∃ t, zeroChoice pick ns = some t := by
  unfold zeroChoice
  cases hf : ns.find? (fun q => q.2 = 0) with
  | none =>
    rw [List.find?_eq_none] at hf
    exact absurd (decide_eq_true hp0) (by simpa using hf p hp)
  | some q =>
    by_cases hany : ns.any (fun r => decide (r.1 = pick ns ∧ r.2 = 0))
    · exact ⟨pick ns, by dsimp only; rw [if_pos hany]⟩
    · exact ⟨q.1, by dsimp only; rw [if_neg hany]⟩

/-- One iteration of the removal loop preserves the invariant, removes
exactly the chosen key, and the chosen key had count zero. -/
theorem sortStep (g : Graph) (hwf : g.WF) {pick : List (Nat × Int) → Nat}
    {ns : List (Nat × Int)} {t : Nat}
    (hinv : SortInv g ns) (ht : zeroChoice pick ns = some t) :
    SortInv g (eraseKey (decAll ns (adjascent g t)) t)
    ∧ keysOf (eraseKey (decAll ns (adjascent g t)) t)
        = (keysOf ns).filter (fun x => x ≠ t)
    ∧ (eraseKey (decAll ns (adjascent g t)) t).length + 1 = ns.length
    ∧ (t, (0 : Int)) ∈ ns := by
  obtain ⟨hnd, hval, hrem⟩ := hinv
  have htm : (t, (0 : Int)) ∈ ns := zeroChoice_some_mem ht
  have htk : t ∈ keysOf ns := List.mem_map_of_mem Prod.fst htm
  have ht0 : inDegOn g (keysOf ns) t = 0 := ((hval _ htm).2).symm
  have htv : t < g.v := (hval _ htm).1
  have hsub : ∀ w ∈ adjascent g t, w ∈ keysOf ns := by
    intro w hw
    by_cases hwt : w = t
    · exact hwt ▸ htk
    · by_contra hnk
      have hwv : w < g.v := (Edge.lt hwf (show Edge g t w from hw)).2
      have hz := hrem w hwv hnk
      have hpos := inDegOn_pos g htk (fun he => hwt he.symm) hw
      omega
  have hdec := decAll_spec (adjascent g t) ns hsub
  have hkeys1 : keysOf (decAll ns (adjascent g t)) = keysOf ns := by
    rw [hdec]
    exact keysOf_map_snd ns _
  have hkeys : keysOf (eraseKey (decAll ns (adjascent g t)) t)
      = (keysOf ns).filter (fun x => x ≠ t) := by
    rw [keysOf_eraseKey, hkeys1]
  have hlen : (eraseKey (decAll ns (adjascent g t)) t).length + 1 = ns.length := by
    have e1 : (eraseKey (decAll ns (adjascent g t)) t).length
        = (keysOf (eraseKey (decAll ns (adjascent g t)) t)).length := by
      unfold keysOf
      rw [List.length_map]
    have e2 : ns.length = (keysOf ns).length := by
      unfold keysOf
      rw [List.length_map]
    rw [e1, e2, hkeys]
    exact length_filter_ne_of_nodup hnd htk
  refine ⟨⟨?_, ?_, ?_⟩, hkeys, hlen, htm⟩
  · rw [hkeys]
    exact hnd.filter _
  · intro p' hp'
    have hp'1 : p' ∈ decAll ns (adjascent g t) ∧ p'.1 ≠ t := by
      have := List.mem_filter.mp hp'
      exact ⟨this.1, by simpa using this.2⟩
    obtain ⟨p, hp, hpe⟩ := List.mem_map.mp (hdec ▸ hp'1.1)
    have hx : p'.1 = p.1 := by rw [← hpe]
    have hxv : p.1 < g.v := (hval _ hp).1
    have hxval : p.2 = inDegOn g (keysOf ns) p.1 := (hval _ hp).2
    have hnex : t ≠ p.1 := fun he => hp'1.2 (by rw [hx, ← he])
    have hsplit := inDegOn_split g hnd htk hnex
    constructor
    · rw [hx]; exact hxv
    · rw [hkeys, hx]
      have : p'.2 = p.2 - ((adjascent g t).count p.1 : Int) := by rw [← hpe]
      rw [this, hxval, hsplit]
      ring
  · intro x hxv hxk
    rw [hkeys] at hxk ⊢
    by_cases hxt : x = t
    · subst hxt
      have hle := inDegOn_filter_le g (keysOf ns) (fun y => y ≠ x) x
      have hge := inDegOn_nonneg g ((keysOf ns).filter (fun y => y ≠ x)) x
      omega
    · have hxk' : x ∉ keysOf ns := by
        intro hmem
        exact hxk (List.mem_filter.mpr ⟨hmem, by simp [hxt]⟩)
      have hz := hrem x hxv hxk'
      have hle := inDegOn_filter_le g (keysOf ns) (fun y => y ≠ t) x
      have hge := inDegOn_nonneg g ((keysOf ns).filter (fun y => y ≠ t)) x
      omega

theorem keysOf_init (g : Graph) : keysOf (initNeighbours g) = List.range g.v := by
  unfold keysOf initNeighbours
  rw [List.map_map]
  have hc : (Prod.fst ∘ fun x : Nat => (x, inDegOn g (List.range g.v) x)) = id := by
    funext x
    rfl
  rw [hc, List.map_id]

theorem sortInv_init (g : Graph) : SortInv g (initNeighbours g) := by
  refine ⟨?_, ?_, ?_⟩
  · rw [keysOf_init]
    exact List.nodup_range _
  · intro p hp
    obtain ⟨x, hx, rfl⟩ := List.mem_map.mp hp
    exact ⟨List.mem_range.mp hx, by rw [keysOf_init]⟩
  · intro x hxv hxk
    rw [keysOf_init] at hxk
    exact absurd (List.mem_range.mpr hxv) hxk

theorem length_init (g : Graph) : (initNeighbours g).length = g.v := by
  unfold initNeighbours
  rw [List.length_map, List.length_range]

/-- Whenever the removal loop returns an order from an
invariant-satisfying state, the produced suffix is a permutation of
the remaining keys and respects every edge between remaining keys
(irreflexive edges; for the overall acyclic statement self-edges are
excluded separately). -/
theorem sortLoop_ok_spec (g : Graph) (pick : List (Nat × Int) → Nat) (hwf : g.WF) :
    ∀ (fuel : Nat) (ns : List (Nat × Int)) (acc l' : List Nat), SortInv g ns →
      sortLoop g pick fuel ns acc = .ok l' →
      ∃ l, l' = acc ++ l ∧ l.Perm (keysOf ns)
        ∧ ∀ u w, Edge g u w → u ≠ w → u ∈ keysOf ns → w ∈ keysOf ns →
            l.indexOf u < l.indexOf w := by
  intro fuel
  induction fuel with
  | zero =>
    intro ns acc l' hinv h
    rw [sortLoop] at h
    by_cases hne : ns.isEmpty
    · rw [if_pos hne] at h
      cases h
      have hnil : ns = [] := List.isEmpty_iff.mp hne
      refine ⟨[], by simp, by rw [hnil]; rfl, ?_⟩
      intro u w _ _ hu _
      rw [hnil] at hu
      cases hu
    · rw [if_neg hne] at h
      cases h
  | succ n ih =>
    intro ns acc l' hinv h
    rw [sortLoop] at h
    by_cases hne : ns.isEmpty
    · rw [if_pos hne] at h
      cases h
      have hnil : ns = [] := List.isEmpty_iff.mp hne
      refine ⟨[], by simp, by rw [hnil]; rfl, ?_⟩
      intro u w _ _ hu _
      rw [hnil] at hu
      cases hu
    · rw [if_neg hne] at h
      cases hz : zeroChoice pick ns with
      | none =>
        rw [hz] at h
        cases h
      | some t =>
        rw [hz] at h
        dsimp only at h
        obtain ⟨hinv', hkeys, hlen, htm⟩ := sortStep g hwf hinv hz
        obtain ⟨l2, hl'e, hperm, htopo⟩ := ih _ _ _ hinv' h
        have htk : t ∈ keysOf ns := List.mem_map_of_mem Prod.fst htm
        have ht0 : inDegOn g (keysOf ns) t = 0 := ((hinv.2.1) _ htm).2.symm
        refine ⟨t :: l2, by rw [hl'e]; simp, ?_, ?_⟩
        · have h1 : (t :: l2).Perm (t :: (keysOf ns).filter (fun x => x ≠ t)) :=
            List.Perm.cons t (hkeys ▸ hperm)
          exact h1.trans (perm_cons_filter_ne hinv.1 htk)
        · intro u w he hne2 hu hw
          by_cases hwt : w = t
          · subst hwt
            exact absurd ht0 (by
              have := inDegOn_pos g hu hne2 he
              omega)
          · by_cases hut : u = t
            · subst hut
              rw [List.indexOf_cons_self, List.indexOf_cons_ne l2 (fun he2 => hwt he2.symm)]
              exact Nat.succ_pos _
            · have hu' : u ∈ keysOf (eraseKey (decAll ns (adjascent g t)) t) := by
                rw [hkeys]
                exact List.mem_filter.mpr ⟨hu, by simp [hut]⟩
              have hw' : w ∈ keysOf (eraseKey (decAll ns (adjascent g t)) t) := by
                rw [hkeys]
                exact List.mem_filter.mpr ⟨hw, by simp [hwt]⟩
              have := htopo u w he hne2 hu' hw'
              rw [List.indexOf_cons_ne l2 (fun he2 => hut he2.symm),
                List.indexOf_cons_ne l2 (fun he2 => hwt he2.symm)]
              omega

theorem sum_nonpos_list {l : List Int} (h : ∀ x ∈ l, x ≤ 0) : l.sum ≤ 0 := by
  induction l with
  | nil => simp
  | cons a t ih =>
    have ha := h a (List.mem_cons_self a t)
    have ht := ih (fun x hx => h x (List.mem_cons_of_mem a hx))
    simp only [List.sum_cons]
    omega

theorem exists_mem_pos_of_sum_pos {l : List Int} (h : 0 < l.sum) :
    ∃ x ∈ l, 0 < x := by
  by_contra hc
  push_neg at hc
  exact absurd (sum_nonpos_list hc) (by omega)

/-- In an acyclic graph, a non-empty invariant state always contains a
zero-in-degree entry: otherwise every remaining vertex would have a
predecessor among the remaining vertices, and iterating the
predecessor map long enough would revisit a vertex, yielding a cycle. -/
theorem exists_zero_entry (g : Graph) (hac : Acyclic g)
    {ns : List (Nat × Int)} (hinv : SortInv g ns) (hne : ns ≠ []) :
    ∃ p ∈ ns, p.2 = 0 := by
  by_contra hall
  push_neg at hall
  obtain ⟨hnd, hval, hrem⟩ := hinv
  have hpred : ∀ x ∈ keysOf ns, ∃ w ∈ keysOf ns, w ≠ x ∧ Edge g w x := by
    intro x hx
    obtain ⟨p, hp, rfl⟩ := List.mem_map.mp hx
    have hne0 := hall p hp
    have hvp := (hval p hp).2
    have hnn := inDegOn_nonneg g (keysOf ns) p.1
    have hpos : 0 < inDegOn g (keysOf ns) p.1 := by omega
    unfold inDegOn at hpos
    obtain ⟨a, ha, hapos⟩ := exists_mem_pos_of_sum_pos hpos
    obtain ⟨w, hwmem, rfl⟩ := List.mem_map.mp ha
    have hw1 : w ∈ keysOf ns := (List.mem_filter.mp hwmem).1
    have hw2 : w ≠ p.1 := by
      have := (List.mem_filter.mp hwmem).2
      simpa using this
    have hw3 : Edge g w p.1 := by
      unfold Edge
      rw [← List.count_pos_iff]
      omega
    exact ⟨w, hw1, hw2, hw3⟩
  have hpred' : ∀ x : Nat, ∃ w : Nat,
      x ∈ keysOf ns → w ∈ keysOf ns ∧ w ≠ x ∧ Edge g w x := by
    intro x
    by_cases hx : x ∈ keysOf ns
    · obtain ⟨w, hw1, hw2, hw3⟩ := hpred x hx
      exact ⟨w, fun _ => ⟨hw1, hw2, hw3⟩⟩
    · exact ⟨0, fun hx' => absurd hx' hx⟩
  choose f hf using hpred'
  obtain ⟨p0, hp0⟩ : ∃ p, p ∈ ns := by
    cases ns with
    | nil => exact absurd rfl hne
    | cons a t => exact ⟨a, List.mem_cons_self a t⟩
  have hx0 : p0.1 ∈ keysOf ns := List.mem_map_of_mem Prod.fst hp0
  have hseqS : ∀ n, f^[n] p0.1 ∈ keysOf ns := by
    intro n
    induction n with
    | zero => simpa
    | succ k ihk =>
      rw [Function.iterate_succ_apply']
      exact (hf _ ihk).1
  have hedge : ∀ n, Edge g (f^[n + 1] p0.1) (f^[n] p0.1) := by
    intro n
    rw [Function.iterate_succ_apply']
    exact (hf _ (hseqS n)).2.2
  have hchain : ∀ a k : Nat,
      Relation.TransGen (Edge g) (f^[a + k + 1] p0.1) (f^[a] p0.1) := by
    intro a k
    induction k with
    | zero => exact Relation.TransGen.single (hedge a)
    | succ m ihm =>
      have hstep : Edge g (f^[a + m + 1 + 1] p0.1) (f^[a + m + 1] p0.1) :=
        hedge (a + m + 1)
      have : a + (m + 1) + 1 = a + m + 1 + 1 := by omega
      rw [this]
      exact Relation.TransGen.head hstep (by
        have h2 : a + m + 1 = a + (m + 1) := by omega
        exact ihm)
  have hcard : ((keysOf ns).toFinset).card
      < (Finset.range ((keysOf ns).length + 1)).card := by
    rw [Finset.card_range]
    have := List.toFinset_card_le (keysOf ns)
    omega
  have hmaps : ∀ a ∈ Finset.range ((keysOf ns).length + 1),
      f^[a] p0.1 ∈ (keysOf ns).toFinset := by
    intro a _
    rw [List.mem_toFinset]
    exact hseqS a
  obtain ⟨i, _, j, _, hij, hfij⟩ :=
    Finset.exists_ne_map_eq_of_card_lt_of_maps_to hcard hmaps
  rcases Nat.lt_or_ge i j with hlt | hge
  · obtain ⟨k, rfl⟩ : ∃ k, j = i + k + 1 := ⟨j - i - 1, by omega⟩
    have := hchain i k
    rw [hfij] at this
    exact hac _ this
  · have hlt2 : j < i := by omega
    obtain ⟨k, rfl⟩ : ∃ k, i = j + k + 1 := ⟨i - j - 1, by omega⟩
    have := hchain j k
    rw [← hfij] at this
    exact hac _ this

theorem sortLoop_total (g : Graph) (pick : List (Nat × Int) → Nat)
    (hwf : g.WF) (hac : Acyclic g) :
    ∀ (fuel : Nat) (ns : List (Nat × Int)) (acc : List Nat), SortInv g ns →
      ns.length ≤ fuel → ∃ l', sortLoop g pick fuel ns acc = .ok l' := by
  intro fuel
  induction fuel with
  | zero =>
    intro ns acc hinv hlen
    have hnil : ns = [] := List.length_eq_zero.mp (by omega)
    subst hnil
    exact ⟨acc, by rw [sortLoop]; rfl⟩
  | succ n ih =>
    intro ns acc hinv hlen
    by_cases hne : ns.isEmpty
    · exact ⟨acc, by rw [sortLoop, if_pos hne]⟩
    · have hnsne : ns ≠ [] := fun he => hne (by rw [he]; rfl)
      obtain ⟨p, hp, hp0⟩ := exists_zero_entry g hac hinv hnsne
      obtain ⟨t, hzc⟩ := zeroChoice_isSome hp hp0
      obtain ⟨hinv', _, hlen', _⟩ := sortStep g hwf hinv hzc
      obtain ⟨l', hl'⟩ := ih _ (acc ++ [t]) hinv' (by omega)
      refine ⟨l', ?_⟩
      rw [sortLoop, if_neg hne, hzc]
      exact hl'

/-- The conclusion of claim C4 for the output of `sort`: a returned
order that is a permutation of all vertices and respects every edge. -/
def TopoOk (g : Graph) (out : SortOut) : Prop :=
  ∃ l, out = .ok l ∧ l.Perm (List.range g.v)
    ∧ ∀ u w, Edge g u w → l.indexOf u < l.indexOf w

/-- Claim C4: for every well-formed acyclic graph, `sort` returns a
permutation of all `g.v` vertices in which the source of every edge
precedes its target. -/
theorem sort_acyclic_topo (g : Graph) (pick : List (Nat × Int) → Nat)
    (hwf : g.WF) (hac : Acyclic g) : TopoOk g (sort g pick) := by
  obtain ⟨l', hl'⟩ := sortLoop_total g pick hwf hac g.v (initNeighbours g) []
    (sortInv_init g) (by rw [length_init])
  obtain ⟨l, hle, hperm, htopo⟩ := sortLoop_ok_spec g pick hwf g.v (initNeighbours g) [] l'
    (sortInv_init g) hl'
  rw [List.nil_append] at hle
  refine ⟨l, by unfold sort; rw [hl', hle], by rw [keysOf_init] at hperm; exact hperm, ?_⟩
  intro u w he
  have hne : u ≠ w := fun heq => hac u (Relation.TransGen.single (heq ▸ he))
  have hu : u ∈ keysOf (initNeighbours g) := by
    rw [keysOf_init]
    exact List.mem_range.mpr (Edge.lt hwf he).1
  have hw : w ∈ keysOf (initNeighbours g) := by
    rw [keysOf_init]
    exact List.mem_range.mpr (Edge.lt hwf he).2
  exact htopo u w he hne hu hw

/-- The source of any edge indexes into the adjacency array. -/
theorem edge_src_lt_adj {g : Graph} {u w : Nat} (h : Edge g u w) :
    u < g.adj.length := by
  by_contra hge
  have hnil : adjascent g u = [] := by
    unfold adjascent List.getD
    rw [List.get?_eq_none.mpr (by omega)]
    rfl
  unfold Edge at h
  rw [hnil] at h
  cases h

/-- If every edge goes from a smaller to a larger vertex, the graph is
acyclic (a decidable sufficient condition used by the witnesses). -/
theorem acyclic_of_increasing (g : Graph)
    (h : ∀ u < g.adj.length, ∀ w ∈ adjascent g u, u < w) : Acyclic g := by
  have hmono : ∀ a b, Relation.TransGen (Edge g) a b → a < b := by
    intro a b hab
    induction hab with
    | single hc => exact h a (edge_src_lt_adj hc) _ hc
    | tail hab hbc ih => exact Nat.lt_trans ih (h _ (edge_src_lt_adj hbc) _ hbc)
  intro x hx
  exact absurd (hmono x x hx) (by omega)

/-- A concrete acyclic graph: 3 vertices, edges 0 to 1, 0 to 2, 1 to 2. -/
def gAcyclic : Graph := ⟨3, [[1, 2], [2], []]⟩

/-- A pick oracle (its value is irrelevant to the theorems; it stands
for one possible Go map iteration order). -/
def pickFst : List (Nat × Int) → Nat := fun ns => (keysOf ns).headD 0

/-- Witness for claim C4 at the concrete graph `gAcyclic`. -/
theorem sort_acyclic_topo_witness : TopoOk gAcyclic (sort gAcyclic pickFst) :=
  sort_acyclic_topo gAcyclic pickFst (by decide)
    (acyclic_of_increasing gAcyclic (by decide))

/-- Every member of a closed edge cycle (of length at least 2, without
repeats) has a predecessor on the cycle distinct from itself. -/
theorem cycle_pred (g : Graph) {cyc : List Nat}
    (hlen : 2 ≤ cyc.length) (hnd : cyc.Nodup) (hch : cyc.Chain' (Edge g))
    (hcl : Edge g (cyc.getLastD 0) (cyc.headD 0)) :
    ∀ x ∈ cyc, ∃ w ∈ cyc, w ≠ x ∧ Edge g w x := by
  have hne : cyc ≠ [] := by
    intro he
    rw [he] at hlen
    simp at hlen
  intro x hx
  obtain ⟨⟨i, hi⟩, hg⟩ := List.mem_iff_get.mp hx
  cases i with
  | zero =>
    have hhead : cyc.headD 0 = x := by
      cases cyc with
      | nil => exact absurd rfl hne
      | cons a t => exact hg
    have hlaste : cyc.getLastD 0 = cyc.getLast hne := by
      cases cyc with
      | nil => exact absurd rfl hne
      | cons a t => rw [List.getLast_eq_getLastD, List.getLastD_cons]
    refine ⟨cyc.getLastD 0, ?_, ?_, ?_⟩
    · rw [hlaste]
      exact List.getLast_mem hne
    · rw [hlaste]
      intro he
      have hgl : cyc.getLast hne = cyc.get ⟨cyc.length - 1, by omega⟩ :=
        List.getLast_eq_get cyc hne
      rw [hgl, ← hg] at he
      have hfe := (List.Nodup.get_inj_iff hnd).mp he
      have h2 : cyc.length - 1 = 0 := congrArg Fin.val hfe
      omega
    · rw [hhead] at hcl
      exact hcl
  | succ j =>
    have hj : j < cyc.length - 1 := by omega
    have hchj := List.chain'_iff_get.mp hch j hj
    refine ⟨cyc.get ⟨j, by omega⟩, List.get_mem _ _ _, ?_, ?_⟩
    · intro he
      rw [← hg] at he
      have hfe := (List.Nodup.get_inj_iff hnd).mp he
      have h2 : j = j + 1 := congrArg Fin.val hfe
      omega
    · have hx1 : cyc.get ⟨j + 1, hi⟩ = x := hg
      rw [← hx1]
      exact hchj

/-- From any invariant state that still contains all vertices of a
closed cycle of length at least two, the removal loop panics: cycle
vertices always have positive in-degree, are never selected, and once
only positive-count entries remain, `toRemove` stays -1 and
`g.adjascent(-1)` is an out-of-range access. -/
theorem sortLoop_panics (g : Graph) (pick : List (Nat × Int) → Nat)
    (hwf : g.WF) {cyc : List Nat}
    (hlen : 2 ≤ cyc.length) (hnd : cyc.Nodup) (hch : cyc.Chain' (Edge g))
    (hcl : Edge g (cyc.getLastD 0) (cyc.headD 0)) :
    ∀ (fuel : Nat) (ns : List (Nat × Int)) (acc : List Nat), SortInv g ns →
      ns.length ≤ fuel → (∀ x ∈ cyc, x ∈ keysOf ns) →
      sortLoop g pick fuel ns acc = .panicked := by
  have hpred := cycle_pred g hlen hnd hch hcl
  obtain ⟨c0, hc0⟩ : ∃ c, c ∈ cyc := by
    cases cyc with
    | nil => simp at hlen
    | cons a t => exact ⟨a, List.mem_cons_self a t⟩
  intro fuel
  induction fuel with
  | zero =>
    intro ns acc hinv hle hsub
    have hnil : ns = [] := List.length_eq_zero.mp (by omega)
    rw [hnil] at hsub
    exact absurd (hsub c0 hc0) (by simp [keysOf])
  | succ n ih =>
    intro ns acc hinv hle hsub
    have hnsne : ns ≠ [] := by
      intro he
      rw [he] at hsub
      exact absurd (hsub c0 hc0) (by simp [keysOf])
    rw [sortLoop, if_neg (fun h => hnsne (List.isEmpty_iff.mp h))]
    cases hz : zeroChoice pick ns with
    | none => rfl
    | some t =>
      obtain ⟨hinv', hkeys, hlen', htm⟩ := sortStep g hwf hinv hz
      have ht0 : inDegOn g (keysOf ns) t = 0 := ((hinv.2.1) _ htm).2.symm
      have htnc : t ∉ cyc := by
        intro htc
        obtain ⟨w, hw1, hw2, hw3⟩ := hpred t htc
        have hwk : w ∈ keysOf ns := hsub w hw1
        have := inDegOn_pos g hwk hw2 hw3
        omega
      dsimp only
      apply ih _ _ hinv' (by omega)
      intro x hxc
      rw [hkeys]
      exact List.mem_filter.mpr
        ⟨hsub x hxc, decide_eq_true (fun he => htnc (he ▸ hxc))⟩

/-- Claim C3 (amended): on a well-formed graph containing a closed
edge cycle through at least two distinct vertices, `sort` does not
return at all: it panics indexing the adjacency array with -1, rather
than returning a partial order. -/
theorem sort_cycle_panics (g : Graph) (pick : List (Nat × Int) → Nat)
    (hwf : g.WF) {cyc : List Nat}
    (hlen : 2 ≤ cyc.length) (hnd : cyc.Nodup) (hch : cyc.Chain' (Edge g))
    (hcl : Edge g (cyc.getLastD 0) (cyc.headD 0)) :
    sort g pick = .panicked := by
  apply sortLoop_panics g pick hwf hlen hnd hch hcl g.v (initNeighbours g) []
    (sortInv_init g) (by rw [length_init])
  intro x hxc
  rw [keysOf_init]
  obtain ⟨w, _, _, hw3⟩ := cycle_pred g hlen hnd hch hcl x hxc
  exact List.mem_range.mpr (Edge.lt hwf hw3).2

/-- A two-vertex graph whose only edges form the cycle 0 to 1 to 0. -/
def graphTwoCycle : Graph := ⟨2, [[1], [0]]⟩

/-- Another pick oracle for use in witnesses. -/
def pickZero : List (Nat × Int) → Nat := fun _ => 0

/-- Counterexample for claim C3: `graphTwoCycle` contains a cycle, yet
`sort` does not return normally with a partial order (fewer elements
than the vertex count); it panics (`toRemove` stays -1 and
`g.adj[-1]` is out of range). -/
theorem sort_cycle_partial_cex :
    sort graphTwoCycle pickFst = SortOut.panicked
    ∧ graphTwoCycle.WF
    ∧ Edge graphTwoCycle 0 1 ∧ Edge graphTwoCycle 1 0 := by
  decide

/-- Witness for the amended claim C3 at `graphTwoCycle` with the cycle
`[0, 1]`. -/
theorem sort_cycle_panics_witness :
    sort graphTwoCycle pickZero = SortOut.panicked :=
  @sort_cycle_panics graphTwoCycle pickZero (by decide) [0, 1]
    (by decide) (by decide)
    (List.chain'_cons.mpr ⟨by decide, List.chain'_singleton 1⟩) (by decide)

/-! ## The execution engine (`Lib` variant: `check`, `copyValue`,
`execute`, `createSync`, `reverse`, `deleteSync`, `Sync`). -/

/-- `Dependency`: a dependency on another resource, optionally carrying
a field-to-field value transfer. -/
structure Dependency where
  fromResource : String
  fromField : String
  toField : String
deriving DecidableEq, Repr

/-- The backing struct of a resource, as its named public fields.  The
source reaches fields through reflection (`FieldByName`); here a field
is an association-list entry.  Field values are modelled as strings
(the engine copies them opaquely, so the value type is irrelevant). -/
abbrev Fields := List (String × String)

/-- `FieldByName` read; a missing field yields the zero value (the
validated flows never read a missing field). -/
def getF (fs : Fields) (n : String) : String := (fs.lookup n).getD ""

/-- `FieldByName(...).Set`: overwrite the named field.  The Go code
panics when the field is missing; `check` rules that out for every
flow the engine runs, so the append branch is unreachable there. -/
def setF : Fields → String → String → Fields
  | [], n, v => [(n, v)]
  | (m, w) :: rest, n, v =>
    if m = n then (m, v) :: rest else (m, w) :: setF rest n v

/-- A resource of the `Lib` variant: name, dependency list, backing
fields, and the `Update`/`Delete` behaviour.  `upd` consumes the
backing fields (after propagation) and produces the new backing
fields together with the returned status string and error — this is
the capability a Go `Update(ctxt)` method has over its own struct.
`del` is the result of `Delete(ctxt)` (each resource is deleted at
most once per Sync). -/
structure Res where
  name : String
  deps : List Dependency
  fields : Fields
  upd : Fields → Fields × String × Option String
  del : Option String

/-- Fallback resource for index accesses; the modelled flows only index
in range (sort returns indices below the vertex count). -/
def dummyRes : Res := ⟨"", [], [], fun fs => (fs, "", none), none⟩

instance : Inhabited Res := ⟨dummyRes⟩

/-- `copyValue(to, toField, from, fromField)`: no-op when either field
name is empty, otherwise copy the named field value. -/
def copyValue (toRes : Res) (toField : String) (fromRes : Res) (fromField : String) : Res :=
  if toField = "" ∨ fromField = "" then toRes
  else { toRes with fields := setF toRes.fields toField (getF fromRes.fields fromField) }

/-- `checkField(r, field)`: ok when the name is empty or the backing
struct has the field (the `protoBuilder` and plain-struct reflection
branches coincide in this model). -/
def checkField (r : Res) (field : String) : Option String :=
  if field = "" then none
  else if (r.fields.lookup field).isSome then none
  else some ("in " ++ r.name ++ " Resource did not find field " ++ field)

/-- The `cache` map built at the top of `check`: name-keyed, later
entries overwrite earlier ones.  Represented as the sublist of
resources that are the last occurrence of their name (iteration order
of the Go map is arbitrary; only which resources appear matters to the
observables below). -/
def cacheOf : List Res → List Res
  | [] => []
  | r :: rest =>
    if rest.any (fun s => s.name == r.name) then cacheOf rest
    else r :: cacheOf rest

/-- The per-dependency validation of `check`, in source order:
`FromField`/`ToField` pairing, `checkField` on the dependent's
`ToField`, existence of `FromResource`, `checkField` on the
dependency's `FromField`. -/
def checkDep (cache : List Res) (r : Res) (dep : Dependency) : Option String :=
  if (dep.toField = "" ∧ dep.fromField ≠ "") ∨ (dep.toField ≠ "" ∧ dep.fromField = "") then
    some ("Resource " ++ r.name ++ " incorrect specification of dependency on "
      ++ dep.fromResource ++ ", fix FromField, ToField")
  else
    match checkField r dep.toField with
    | some e => some e
    | none =>
      match cache.find? (fun s => s.name == dep.fromResource) with
      | none => some ("Dependent resource " ++ dep.fromResource ++ " doesn't exist")
      | some fromRes => checkField fromRes dep.fromField

/-- First error of a list of optional errors. -/
def firstSome : List (Option String) → Option String
  | [] => none
  | some e :: _ => some e
  | none :: rest => firstSome rest

/-- `check(resources)`: validate every dependency of every resource in
the cache; `none` means valid.  (The reflection checks that each
resource is a pointer to a struct have no counterpart in this model:
every modelled resource is struct-backed.) -/
def check (resources : List Res) : Option String :=
  firstSome ((cacheOf resources).map
    (fun r => firstSome (r.deps.map (checkDep (cacheOf resources) r))))

/-- Index map of `buildGraph`.
Modelled from the spec: the `buildGraph` overload taking the
`[]Resource` interface slice used by `Lib.Sync` is not among the
source files; per spec section 2 and 3 ("builds Graph from dependency
edges", vertices are resource indices, edge direction dependency →
dependent) and mirroring the surviving `buildGraph` variants
(deserialize.go), `indexes[name] = i` is assigned in slice order
(later duplicates overwrite), and a missing name reads the map's zero
value 0. -/
def resIndex (res : List Res) (name : String) : Nat :=
  (List.range res.length).foldl
    (fun acc i => if (res.getD i dummyRes).name = name then i else acc) 0

/-- Modelled from the spec (see `resIndex`): one vertex per resource
index, and an edge `resIndex fromResource → i` for every dependency of
resource `i`, with multiplicity.  The surviving variants append edges
grouped by dependent while ranging over a Go map, so the order within
an adjacency list is arbitrary; the sorter's observables are
insensitive to it (in-degrees are sums). -/
def buildGraph (res : List Res) : Graph :=
  let n := res.length
  ⟨n, (List.range n).map (fun j =>
      (List.range n).bind (fun i =>
        (((res.getD i dummyRes).deps.filter
            (fun dep => resIndex res dep.fromResource == j)).map (fun _ => i))))⟩

/-- The record of one resource execution: the resource name, the
backing fields at the moment `Update` was invoked (after dependency
propagation), and the returned status and error. -/
structure ExecRecord where
  name : String
  updInput : Fields
  status : String
  err : Option String
deriving DecidableEq, Repr

/-- The propagation prologue of `execute`: apply `copyValue` once per
dependency, reading each dependency's source from the build cache.  A
dependency absent from the cache is only reachable for pure ordering
dependencies (empty field names), where `copyValue` is a no-op before
touching the source; the engine never executes a resource whose
value-carrying dependency is unbuilt. -/
def depFold (cache : List Res) (deps : List Dependency) (acc : Res) : Res :=
  deps.foldl (fun acc dep =>
    match cache.find? (fun s => s.name == dep.fromResource) with
    | some fromRes => copyValue acc dep.toField fromRes dep.fromField
    | none => acc) acc

/-- `execute(ctxt, r, cache)`: propagate every dependency, then call
`Update`.  Returns the updated resource and the execution record. -/
def execute (r : Res) (cache : List Res) : Res × ExecRecord :=
  let r' := depFold cache r.deps r
  let out := r'.upd r'.fields
  ({ r' with fields := out.1 }, ⟨r'.name, r'.fields, out.2.1, out.2.2⟩)

/-- Membership of a name in the build cache (`buildCache[name]`),
where the cache holds the resources at the built indices (Go stores
the live pointers; the built resources are never mutated after being
cached, so the indices determine the contents). -/
def builtName (res : List Res) (done : List Nat) (x : String) : Bool :=
  done.any (fun j => (res.getD j dummyRes).name == x)

/-- The build cache contents: the resources at the built indices, in
build order. -/
def mkCache (res : List Res) (done : List Nat) : List Res :=
  done.map (fun j => res.getD j dummyRes)

/-- The wave-collection scan of `createSync` (lines 233-254): walk the
topological order, skip resources already built, collect consecutive
ready resources (all dependencies built), and stop at the first
not-ready resource. -/
def scanExec (res : List Res) (done : List Nat) : List Nat → List Nat
  | [] => []
  | i :: rest =>
    let r := res.getD i dummyRes
    if builtName res done r.name then scanExec res done rest
    else if r.deps.all (fun dep => builtName res done dep.fromResource) then
      i :: scanExec res done rest
    else []

/-- The body of one wave over a fixed pre-wave cache. -/
def runWaveGo (cache : List Res) : List Res → List Nat → List Res × List ExecRecord
  | res, [] => (res, [])
  | res, i :: rest =>
    let out := execute (res.getD i dummyRes) cache
    let next := runWaveGo cache (res.set i out.1) rest
    (next.1, out.2 :: next.2)

/-- Run one wave: execute each collected resource against the pre-wave
build cache.  Go launches these as goroutines and joins them at a
barrier; each task writes only its own resource and reads only cached
(frozen) resources, so the joint effect equals this sequential pass,
and the result-collection order (a Go map range) only permutes
name-keyed inserts of distinct names. -/
def runWave (res : List Res) (done : List Nat) (execList : List Nat) :
    List Res × List ExecRecord :=
  runWaveGo (mkCache res done) res execList

/-- The name-keyed error map collected after a wave. -/
def waveErrs (recs : List ExecRecord) : List (String × String) :=
  recs.filterMap (fun rec => rec.err.map (fun e => (rec.name, e)))

/-- Insert into a name-keyed map (overwrite semantics). -/
def insertA : List (String × String) → String → String → List (String × String)
  | [], k, v => [(k, v)]
  | (a, b) :: rest, k, v =>
    if a = k then (a, v) :: rest else (a, b) :: insertA rest k v

/-- Status collection after a wave: any non-empty status string is
recorded under the resource name (also for resources that returned an
error, mirroring lines 277-279). -/
def statusAdd (status : List (String × String)) (recs : List ExecRecord) :
    List (String × String) :=
  recs.foldl (fun st rec => if rec.status = "" then st else insertA st rec.name rec.status) status

/-- Indices of the wave's successes, in execution order (these join the
build cache). -/
def doneAdditions (execList : List Nat) (recs : List ExecRecord) : List Nat :=
  (execList.zip recs).filterMap (fun p => if p.2.err = none then some p.1 else none)

/-- The error result of `Sync`: a validation error from `check`, the
name-keyed per-resource error map, the attempts-exhaustion error
(`errors.New("max attempts at computing resources exhausted, giving up")`),
or a deletion error returned directly. -/
inductive SyncErr where
  | validation (msg : String)
  | resourceErrs (errs : List (String × String))
  | exhausted
  | deleteFailed (msg : String)
deriving DecidableEq, Repr

/-- Result of `createSync`, with ghost observables: the status map and
error (the Go return values), the final resources, the per-wave
execution records, and the final `resourcesLeft`. -/
structure CreateOut where
  status : List (String × String)
  err : Option SyncErr
  res : List Res
  waves : List (List ExecRecord)
  left : Int

/-- The wave loop of `createSync` (lines 230-296), using the
`maxAttempts` counter itself as the recursion fuel, exactly as the Go
loop does: each iteration decrements it, and the loop also stops when
`resourcesLeft` is no longer positive or an error was recorded.  After
the loop, a positive `resourcesLeft` without an error becomes the
exhaustion error (lines 298-300). -/
def createLoop (ordered : List Nat) :
    Nat → List Res → List Nat → List (String × String) → Int →
    List (List ExecRecord) → CreateOut
  | 0, res, _, status, left, waves =>
    ⟨status, if left > 0 then some .exhausted else none, res, waves, left⟩
  | fuel + 1, res, done, status, left, waves =>
    if left ≤ 0 then ⟨status, none, res, waves, left⟩
    else
      let execList := scanExec res done ordered
      let wave := runWave res done execList
      let status' := statusAdd status wave.2
      let done' := done ++ doneAdditions execList wave.2
      let errs := waveErrs wave.2
      let left' := left - ((execList.length : Int) - (errs.length : Int))
      if errs.isEmpty then
        createLoop ordered fuel wave.1 done' status' left' (waves ++ [wave.2])
      else
        ⟨status', some (.resourceErrs errs), wave.1, waves ++ [wave.2], left'⟩

/-- `createSync(ctxt, resources, g)`: run `sort`, then the wave loop
with `maxAttempts = resourcesLeft = len(ordered)`.  A sorter panic
(cyclic graph) propagates as `none`. -/
def createSync (pick : List (Nat × Int) → Nat) (res : List Res) (g : Graph) :
    Option CreateOut :=
  match sort g pick with
  | .ok ordered => some (createLoop ordered ordered.length res [] [] (ordered.length : Int) [])
  | _ => none

/-- `reverse(in)`: the in-place reversal used by `deleteSync`. -/
def reverse (l : List Nat) : List Nat := l.reverse

/-- Result of `deleteSync`: the names whose `Delete` ran, in call
order, and the error (the first failure, returned directly). -/
structure DeleteOut where
  deleted : List String
  err : Option String
deriving DecidableEq, Repr

/-- The sequential deletion pass (lines 329-334): call `Delete` in
order, stop at the first error. -/
def delLoop (res : List Res) : List Nat → DeleteOut
  | [] => ⟨[], none⟩
  | i :: rest =>
    let r := res.getD i dummyRes
    match r.del with
    | some e => ⟨[r.name], some e⟩
    | none =>
      let out := delLoop res rest
      ⟨r.name :: out.deleted, out.err⟩

/-- `deleteSync(ctxt, resources, g)`: sort, reverse, sequential
deletion.  A sorter panic propagates as `none`. -/
def deleteSync (pick : List (Nat × Int) → Nat) (res : List Res) (g : Graph) :
    Option DeleteOut :=
  match sort g pick with
  | .ok ordered => some (delLoop res (reverse ordered))
  | _ => none

/-- Result of `Lib.Sync` with ghost observables: the returned status
map and error, the final resources, the execution records of the
construction waves, and the names deleted (the latter two list exactly
the `Update`/`Delete` invocations the call performed). -/
structure SyncOut where
  status : List (String × String)
  err : Option SyncErr
  res : List Res
  waves : List (List ExecRecord)
  deleted : List String
  left : Int

/-- `Lib.Sync(ctxt, resources, toDelete)`: validate, build the graph,
then construct or delete.  The logger is observationally inert.  A
sorter panic propagates as `none`. -/
def Sync (pick : List (Nat × Int) → Nat) (resources : List Res) (toDelete : Bool) :
    Option SyncOut :=
  match check resources with
  | some msg => some ⟨[], some (.validation msg), resources, [], [], 0⟩
  | none =>
    let g := buildGraph resources
    if toDelete then
      match deleteSync pick resources g with
      | some d => some ⟨[], (d.err.map SyncErr.deleteFailed), resources, [], d.deleted, 0⟩
      | none => none
    else
      match createSync pick resources g with
      | some c => some ⟨c.status, c.err, c.res, c.waves, [], c.left⟩
      | none => none

/-! ### Validation (claim C6) -/

/-- A dependency that violates the validation rules of `check`:
mismatched field pairing, a `toField` missing on the declaring
resource, a `fromResource` absent from the set, or a `fromField`
missing on the referenced resource. -/
def DepViolation (cache : List Res) (r : Res) (dep : Dependency) : Prop :=
  ((dep.toField = "" ∧ dep.fromField ≠ "") ∨ (dep.toField ≠ "" ∧ dep.fromField = ""))
  ∨ (dep.toField ≠ "" ∧ (r.fields.lookup dep.toField) = none)
  ∨ (∀ s ∈ cache, s.name ≠ dep.fromResource)
  ∨ (∃ s ∈ cache, s.name = dep.fromResource ∧ dep.fromField ≠ ""
      ∧ s.fields.lookup dep.fromField = none)

theorem firstSome_eq_none {l : List (Option String)} :
    firstSome l = none ↔ ∀ x ∈ l, x = none := by
  induction l with
  | nil => simp [firstSome]
  | cons a rest ih =>
    cases a with
    | none => simp [firstSome, ih]
    | some e => simp [firstSome]

theorem cacheOf_eq_self {res : List Res} (hnd : (res.map Res.name).Nodup) :
    cacheOf res = res := by
  induction res with
  | nil => rfl
  | cons r rest ih =>
    rw [List.map_cons, List.nodup_cons] at hnd
    have hnone : rest.any (fun s => s.name == r.name) = false := by
      rw [List.any_eq_false]
      intro s hs
      intro heq
      have he : s.name = r.name := by simpa using heq
      exact hnd.1 (he ▸ List.mem_map_of_mem Res.name hs)
    unfold cacheOf
    rw [hnone]
    rw [if_neg (by simp)]
    rw [ih hnd.2]

theorem name_unique {res : List Res} (hnd : (res.map Res.name).Nodup)
    {s1 s2 : Res} (h1 : s1 ∈ res) (h2 : s2 ∈ res) (he : s1.name = s2.name) :
    s1 = s2 := by
  obtain ⟨i, hi⟩ := List.mem_iff_get.mp h1
  obtain ⟨j, hj⟩ := List.mem_iff_get.mp h2
  have hli : i.1 < (res.map Res.name).length := by
    rw [List.length_map]
    exact i.2
  have hlj : j.1 < (res.map Res.name).length := by
    rw [List.length_map]
    exact j.2
  have hmi : (res.map Res.name).get ⟨i.1, hli⟩ = (res.map Res.name).get ⟨j.1, hlj⟩ := by
    rw [List.get_map, List.get_map]
    show (res.get ⟨i.1, _⟩).name = (res.get ⟨j.1, _⟩).name
    rw [Fin.eta, Fin.eta, hi, hj, he]
  have hfe := (List.Nodup.get_inj_iff hnd).mp hmi
  have hij : i = j := by
    apply Fin.ext
    have hv2 := congrArg Fin.val hfe
    simpa using hv2
  rw [← hi, ← hj, hij]

theorem checkDep_isSome_of_violation {cache : List Res} {r : Res} {dep : Dependency}
    (hndc : (cache.map Res.name).Nodup)
    (hv : DepViolation cache r dep) : (checkDep cache r dep).isSome := by
  unfold checkDep
  by_cases hmis : (dep.toField = "" ∧ dep.fromField ≠ "") ∨ (dep.toField ≠ "" ∧ dep.fromField = "")
  · rw [if_pos hmis]
    rfl
  · rw [if_neg hmis]
    cases hcf : checkField r dep.toField with
    | some e => rfl
    | none =>
      dsimp only
      cases hfind : cache.find? (fun s => s.name == dep.fromResource) with
      | none => rfl
      | some fromRes =>
        dsimp only
        have hfr1 : fromRes ∈ cache := List.mem_of_find?_eq_some hfind
        have hfr2 : fromRes.name = dep.fromResource := by
          have := List.find?_some hfind
          simpa using this
        rcases hv with h | h | h | h
        · exact absurd h hmis
        · exfalso
          unfold checkField at hcf
          rw [if_neg h.1, h.2] at hcf
          simp at hcf
        · exact absurd hfr2 (h fromRes hfr1)
        · obtain ⟨s, hs, hsn, hsf, hsl⟩ := h
          have hse : s = fromRes := name_unique hndc hs hfr1 (by rw [hsn, hfr2])
          subst hse
          unfold checkField
          rw [if_neg hsf, hsl]
          simp

/-- Claim C6: when any resource declares a dependency with a missing
referenced resource, a mismatched field pairing, or a missing named
field, `Sync` (for either value of `toDelete`) returns a validation
error with no construction wave run and no deletion performed — no
resource's `Update` or `Delete` is invoked, and the resources are
untouched. -/
theorem sync_validation_failfast (pick : List (Nat × Int) → Nat)
    (resources : List Res) (b : Bool)
    (hnd : (resources.map Res.name).Nodup)
    (hviol : ∃ r ∈ resources, ∃ dep ∈ r.deps, DepViolation resources r dep) :
    ∃ msg, Sync pick resources b
      = some ⟨[], some (.validation msg), resources, [], [], 0⟩ := by
  have hcs : cacheOf resources = resources := cacheOf_eq_self hnd
  obtain ⟨r, hr, dep, hdep, hv⟩ := hviol
  have hds := @checkDep_isSome_of_violation resources r dep hnd hv
  have hcheck : check resources ≠ none := by
    intro hn
    unfold check at hn
    rw [hcs] at hn
    have h1 := (firstSome_eq_none.mp hn) _ (List.mem_map_of_mem _ hr)
    have h2 := (firstSome_eq_none.mp h1) _ (List.mem_map_of_mem _ hdep)
    rw [h2] at hds
    simp at hds
  obtain ⟨msg, hmsg⟩ := Option.ne_none_iff_exists'.mp hcheck
  refine ⟨msg, ?_⟩
  unfold Sync
  rw [hmsg]

/-- The kinesis-like resource of the repository's tests. -/
def resKin : Res := ⟨"mykin", [], [("Arn", "hello123")], fun fs => (fs, "", none), none⟩

/-- A resource depending on the non-existent resource "mykin2"
(mirroring `TestInvalidDependency`). -/
def resBadDep : Res :=
  ⟨"mydep1", [⟨"mykin2", "Arn", "KinesisArn"⟩], [("KinesisArn", "")],
    fun fs => (fs, getF fs "KinesisArn", none), none⟩

/-- Witness for claim C6 at the `TestInvalidDependency` scenario, for
both values of `toDelete`. -/
theorem sync_validation_failfast_witness :
    (∃ msg, Sync pickFst [resKin, resBadDep] false
      = some ⟨[], some (.validation msg), [resKin, resBadDep], [], [], 0⟩)
    ∧ (∃ msg, Sync pickFst [resKin, resBadDep] true
      = some ⟨[], some (.validation msg), [resKin, resBadDep], [], [], 0⟩) := by
  have hviol : ∃ r ∈ [resKin, resBadDep], ∃ dep ∈ r.deps,
      DepViolation [resKin, resBadDep] r dep := by
    refine ⟨resBadDep, List.mem_cons_of_mem _ (List.mem_cons_self _ _),
      ⟨"mykin2", "Arn", "KinesisArn"⟩, List.mem_cons_self _ _, ?_⟩
    refine Or.inr (Or.inr (Or.inl ?_))
    intro s hs
    rcases List.mem_cons.mp hs with rfl | hs2
    · decide
    · rcases List.mem_cons.mp hs2 with rfl | hs3
      · decide
      · cases hs3
  exact ⟨sync_validation_failfast pickFst _ false (by decide) hviol,
    sync_validation_failfast pickFst _ true (by decide) hviol⟩

/-! ### Deletion (claim C7) -/

theorem delLoop_all_clean (res : List Res) :
    ∀ order : List Nat, (∀ i ∈ order, (res.getD i dummyRes).del = none) →
      delLoop res order = ⟨order.map (fun i => (res.getD i dummyRes).name), none⟩ := by
  intro order
  induction order with
  | nil => intro _; rfl
  | cons i rest ih =>
    intro h
    have hi := h i (List.mem_cons_self i rest)
    rw [delLoop]
    rw [hi]
    dsimp only
    rw [ih (fun j hj => h j (List.mem_cons_of_mem i hj))]
    simp

theorem delLoop_first_fail (res : List Res) :
    ∀ (pre : List Nat) (f : Nat) (post : List Nat) (e : String),
      (∀ j ∈ pre, (res.getD j dummyRes).del = none) →
      (res.getD f dummyRes).del = some e →
      delLoop res (pre ++ f :: post)
        = ⟨(pre.map (fun i => (res.getD i dummyRes).name))
            ++ [(res.getD f dummyRes).name], some e⟩ := by
  intro pre
  induction pre with
  | nil =>
    intro f post e _ hf
    rw [List.nil_append, delLoop, hf]
    simp
  | cons j rest ih =>
    intro f post e hpre hf
    have hj := hpre j (List.mem_cons_self j rest)
    rw [List.cons_append, delLoop, hj]
    dsimp only
    rw [ih f post e (fun k hk => hpre k (List.mem_cons_of_mem j hk)) hf]
    simp

/-- Claim C7: deletion walks the exact reverse of the construction
topological order, one resource at a time; with no failures every
resource's `Delete` runs in that order, and when the resource at
reverse-position `|pre|` fails, exactly the resources before it plus
itself have `Delete` invoked (nothing after), and its own error is
returned directly, unaggregated. -/
theorem deleteSync_reverse_failfast (pick : List (Nat × Int) → Nat)
    (res : List Res) (g : Graph) (ordered : List Nat)
    (hs : sort g pick = .ok ordered) :
    ((∀ i ∈ reverse ordered, (res.getD i dummyRes).del = none) →
      deleteSync pick res g
        = some ⟨(reverse ordered).map (fun i => (res.getD i dummyRes).name), none⟩)
    ∧ (∀ (pre : List Nat) (f : Nat) (post : List Nat) (e : String),
        reverse ordered = pre ++ f :: post →
        (∀ j ∈ pre, (res.getD j dummyRes).del = none) →
        (res.getD f dummyRes).del = some e →
        deleteSync pick res g
          = some ⟨(pre.map (fun i => (res.getD i dummyRes).name))
              ++ [(res.getD f dummyRes).name], some e⟩) := by
  constructor
  · intro hall
    unfold deleteSync
    rw [hs]
    dsimp only
    rw [delLoop_all_clean res (reverse ordered) hall]
  · intro pre f post e hsplit hpre hf
    unfold deleteSync
    rw [hs]
    dsimp only
    rw [hsplit, delLoop_first_fail res pre f post e hpre hf]

/-- Resources for the C7 witness: deleting in reverse construction
order, the middle resource fails. -/
def resDelA : Res := ⟨"a", [], [], fun fs => (fs, "", none), none⟩

def resDelB : Res := ⟨"b", [⟨"a", "", ""⟩], [], fun fs => (fs, "", none), some "delete failed b"⟩

def resDelC : Res := ⟨"c", [⟨"b", "", ""⟩], [], fun fs => (fs, "", none), none⟩

/-- Witness for claim C7: for the chain a before b before c, the
construction order is [0, 1, 2], deletion visits [2, 1, 0]; "c" is
deleted, "b" fails and its error is returned directly, and "a" (after
the failing position) is never deleted. -/
theorem deleteSync_reverse_failfast_witness :
    deleteSync pickFst [resDelA, resDelB, resDelC]
        (buildGraph [resDelA, resDelB, resDelC])
      = some ⟨["c", "b"], some "delete failed b"⟩ := by
  have hs : sort (buildGraph [resDelA, resDelB, resDelC]) pickFst
      = .ok [0, 1, 2] := by decide
  have h := (deleteSync_reverse_failfast pickFst [resDelA, resDelB, resDelC]
    (buildGraph [resDelA, resDelB, resDelC]) [0, 1, 2] hs).2
    [2] 1 [0] "delete failed b" rfl (by
      intro j hj
      rcases List.mem_cons.mp hj with rfl | hj2
      · rfl
      · cases hj2) rfl
  exact h

/-! ### Fail-fast construction (claim C5) and exhaustion (claim C8) -/

theorem createLoop_failfast (ordered : List Nat) :
    ∀ (fuel : Nat) (res : List Res) (done : List Nat)
      (status : List (String × String)) (left : Int)
      (waves : List (List ExecRecord)),
      (∀ w ∈ waves, waveErrs w = []) →
      (let out := createLoop ordered fuel res done status left waves
       ∃ nw, out.waves = waves ++ nw
       ∧ (∀ w ∈ out.waves.dropLast, waveErrs w = [])
       ∧ (∀ m, out.err = some (.resourceErrs m) →
            m = waveErrs (out.waves.getLastD []) ∧ m ≠ [])
       ∧ ((∀ m, out.err ≠ some (.resourceErrs m)) →
            ∀ w ∈ out.waves, waveErrs w = [])) := by
  intro fuel
  induction fuel with
  | zero =>
    intro res done status left waves hclean
    refine ⟨[], by simp [createLoop], ?_, ?_, ?_⟩
    · intro w hw
      exact hclean w ((List.dropLast_sublist _).mem (by simpa [createLoop] using hw))
    · intro m hm
      simp only [createLoop] at hm
      by_cases hl : left > 0
      · rw [if_pos hl] at hm
        cases hm
      · rw [if_neg hl] at hm
        cases hm
    · intro _ w hw
      exact hclean w (by simpa [createLoop] using hw)
  | succ n ih =>
    intro res done status left waves hclean
    by_cases hl : left ≤ 0
    · refine ⟨[], by simp [createLoop, hl], ?_, ?_, ?_⟩
      · intro w hw
        exact hclean w ((List.dropLast_sublist _).mem (by simpa [createLoop, hl] using hw))
      · intro m hm
        simp only [createLoop, if_pos hl] at hm
        exact Option.noConfusion hm
      · intro _ w hw
        exact hclean w (by simpa [createLoop, hl] using hw)
    · rw [createLoop, if_neg hl]
      by_cases herr : (waveErrs (runWave res done (scanExec res done ordered)).2).isEmpty
      · rw [if_pos herr]
        have hclean' : ∀ w ∈ waves ++ [(runWave res done (scanExec res done ordered)).2],
            waveErrs w = [] := by
          intro w hw
          rcases List.mem_append.mp hw with h | h
          · exact hclean w h
          · rw [List.mem_singleton.mp h]
            exact List.isEmpty_iff.mp herr
        obtain ⟨nw, h1, h2, h3, h4⟩ := ih _ _ _ _ _ hclean'
        exact ⟨[(runWave res done (scanExec res done ordered)).2] ++ nw,
          by rw [h1, List.append_assoc], h2, h3, h4⟩
      · rw [if_neg herr]
        refine ⟨[(runWave res done (scanExec res done ordered)).2], rfl, ?_, ?_, ?_⟩
        · intro w hw
          simp only [List.dropLast_concat] at hw
          exact hclean w hw
        · intro m hm
          simp only [Option.some.injEq, SyncErr.resourceErrs.injEq] at hm
          subst hm
          refine ⟨by simp [List.getLastD_concat], ?_⟩
          intro he
          rw [he] at herr
          exact herr rfl
        · intro hne
          exact absurd rfl (hne (waveErrs (runWave res done (scanExec res done ordered)).2))

/-- Claim C5: when some construction wave records at least one
per-resource error, `createSync` stops right after that wave's
barrier: the erroring wave is the last wave run (every earlier wave is
error-free, no later wave exists, so no not-yet-run resource is
started afterwards), and the returned error is exactly that wave's
name-keyed error map. -/
theorem createSync_failfast (pick : List (Nat × Int) → Nat)
    (res : List Res) (g : Graph) (out : CreateOut)
    (hc : createSync pick res g = some out)
    (herr : ∃ w ∈ out.waves, waveErrs w ≠ []) :
    out.err = some (.resourceErrs (waveErrs (out.waves.getLastD [])))
    ∧ waveErrs (out.waves.getLastD []) ≠ []
    ∧ ∀ w ∈ out.waves.dropLast, waveErrs w = [] := by
  unfold createSync at hc
  cases hs : sort g pick with
  | ok ordered =>
    rw [hs] at hc
    dsimp only at hc
    have hout : createLoop ordered ordered.length res [] [] (ordered.length : Int) [] = out :=
      Option.some.inj hc
    obtain ⟨nw, _, h2, h3, h4⟩ := createLoop_failfast ordered ordered.length res [] [] _ []
      (fun w hw => absurd hw (List.not_mem_nil w))
    rw [hout] at h2 h3 h4
    obtain ⟨w, hwmem, hwne⟩ := herr
    cases he : out.err with
    | none =>
      exact absurd (h4 (fun m hm => by rw [he] at hm; exact Option.noConfusion hm) w hwmem) hwne
    | some e =>
      cases e with
      | resourceErrs m =>
        obtain ⟨hm1, hm2⟩ := h3 m he
        refine ⟨by rw [hm1], by rw [← hm1]; exact hm2, h2⟩
      | validation msg =>
        exact absurd (h4 (fun m hm => by rw [he] at hm; simp at hm) w hwmem) hwne
      | exhausted =>
        exact absurd (h4 (fun m hm => by rw [he] at hm; simp at hm) w hwmem) hwne
      | deleteFailed msg =>
        exact absurd (h4 (fun m hm => by rw [he] at hm; simp at hm) w hwmem) hwne
  | panicked =>
    rw [hs] at hc
    exact Option.noConfusion hc
  | spin =>
    rw [hs] at hc
    exact Option.noConfusion hc

/-- A resource whose update fails (status is still returned). -/
def resBoom : Res := ⟨"boom", [], [], fun fs => (fs, "st", some "exploded"), none⟩

/-- A plain succeeding resource. -/
def resDyn : Res := ⟨"mydyn", [], [], fun fs => (fs, "", none), none⟩

/-- The construction outcome of the C5 witness scenario (a failing and
a succeeding resource in the same wave). -/
def outC5 : CreateOut :=
  (createSync pickFst [resBoom, resDyn] (buildGraph [resBoom, resDyn])).getD
    ⟨[], none, [], [], 0⟩

/-- Witness for claim C5 at the concrete two-resource scenario: the
error of the single (last) wave is returned, keyed by resource name. -/
theorem createSync_failfast_witness :
    outC5.err = some (.resourceErrs (waveErrs (outC5.waves.getLastD [])))
    ∧ waveErrs (outC5.waves.getLastD []) ≠ [] := by
  have hc : createSync pickFst [resBoom, resDyn] (buildGraph [resBoom, resDyn])
      = some outC5 := rfl
  have h := createSync_failfast pickFst [resBoom, resDyn] (buildGraph [resBoom, resDyn])
    outC5 hc ⟨outC5.waves.getLastD [], by decide, by decide⟩
  exact ⟨h.1, h.2.1⟩

theorem createLoop_zero (ordered : List Nat) (res : List Res) (done : List Nat)
    (status : List (String × String)) (left : Int) (waves : List (List ExecRecord)) :
    createLoop ordered 0 res done status left waves
      = ⟨status, if left > 0 then some .exhausted else none, res, waves, left⟩ := rfl

theorem createLoop_succ (ordered : List Nat) (fuel : Nat) (res : List Res)
    (done : List Nat) (status : List (String × String)) (left : Int)
    (waves : List (List ExecRecord)) :
    createLoop ordered (fuel + 1) res done status left waves
      = if left ≤ 0 then ⟨status, none, res, waves, left⟩
        else
          let execList := scanExec res done ordered
          let wave := runWave res done execList
          let status' := statusAdd status wave.2
          let done' := done ++ doneAdditions execList wave.2
          let errs := waveErrs wave.2
          let left' := left - ((execList.length : Int) - (errs.length : Int))
          if errs.isEmpty then
            createLoop ordered fuel wave.1 done' status' left' (waves ++ [wave.2])
          else
            ⟨status', some (.resourceErrs errs), wave.1, waves ++ [wave.2], left'⟩ := rfl

theorem createLoop_exhaustion (ordered : List Nat) :
    ∀ (fuel : Nat) (res : List Res) (done : List Nat)
      (status : List (String × String)) (left : Int)
      (waves : List (List ExecRecord)),
      (let out := createLoop ordered fuel res done status left waves
       out.left > 0 → (∀ w ∈ out.waves, waveErrs w = []) →
       out.err = some .exhausted) := by
  intro fuel
  induction fuel with
  | zero =>
    intro res done status left waves
    dsimp only
    intro hleft _
    rw [createLoop_zero] at hleft ⊢
    dsimp only at hleft ⊢
    rw [if_pos hleft]
  | succ n ih =>
    intro res done status left waves
    dsimp only
    intro hleft hclean
    rw [createLoop_succ] at hleft hclean ⊢
    by_cases hl : left ≤ 0
    · rw [if_pos hl] at hleft
      dsimp only at hleft
      omega
    · rw [if_neg hl] at hleft hclean ⊢
      dsimp only at hleft hclean ⊢
      by_cases herr : (waveErrs (runWave res done (scanExec res done ordered)).2).isEmpty
      · rw [if_pos herr] at hleft hclean ⊢
        exact ih _ _ _ _ _ hleft hclean
      · rw [if_neg herr] at hclean
        dsimp only at hclean
        have hmem : (runWave res done (scanExec res done ordered)).2
            ∈ waves ++ [(runWave res done (scanExec res done ordered)).2] := by
          simp
        have h5 := hclean _ hmem
        rw [List.isEmpty_iff] at herr
        exact absurd h5 herr

/-- Claim C8 (amended): if construction runs out of its bounded number
of waves with resources still unbuilt and no per-resource error in any
wave, `createSync` returns the fatal "attempts exhausted" error.  (The
"in particular, a dependency cycle" reading only survives for a
self-referential dependency, which `sort` tolerates because its
in-degree count skips self-edges and whose readiness then never holds;
a dependency cycle between two or more resources instead panics inside
`sort` before any wave runs — see the counterexample.) -/
theorem createSync_exhaustion (pick : List (Nat × Int) → Nat)
    (res : List Res) (g : Graph) (out : CreateOut)
    (hc : createSync pick res g = some out)
    (hleft : out.left > 0)
    (hclean : ∀ w ∈ out.waves, waveErrs w = []) :
    out.err = some .exhausted := by
  unfold createSync at hc
  cases hs : sort g pick with
  | ok ordered =>
    rw [hs] at hc
    dsimp only at hc
    have hout := Option.some.inj hc
    rw [← hout] at hleft hclean ⊢
    exact createLoop_exhaustion ordered ordered.length res [] [] _ [] hleft hclean
  | panicked =>
    rw [hs] at hc
    exact Option.noConfusion hc
  | spin =>
    rw [hs] at hc
    exact Option.noConfusion hc

/-- Resources forming a two-resource dependency cycle. -/
def resCycA : Res := ⟨"a", [⟨"b", "", ""⟩], [], fun fs => (fs, "", none), none⟩

def resCycB : Res := ⟨"b", [⟨"a", "", ""⟩], [], fun fs => (fs, "", none), none⟩

/-- Counterexample for claim C8: with a dependency cycle between two
resources, `Sync` does not return the "attempts exhausted" error — it
does not return at all, because `sort` panics (`g.adj[-1]`) before any
construction wave runs. -/
theorem sync_cycle_no_exhaustion_cex :
    Sync pickFst [resCycA, resCycB] false = none := by
  rfl

/-- A resource that depends on itself: the self edge is invisible to
the sorter's in-degree count, but readiness never holds. -/
def resSelf : Res := ⟨"a", [⟨"a", "", ""⟩], [], fun fs => (fs, "", none), none⟩

/-- The construction outcome of the C8 witness scenario. -/
def outC8 : CreateOut :=
  (createSync pickFst [resSelf] (buildGraph [resSelf])).getD ⟨[], none, [], [], 0⟩

/-- Witness for the amended claim C8: a self-referential dependency
exhausts the single attempt with the resource still unbuilt and no
per-resource error, producing the exhaustion error. -/
theorem createSync_exhaustion_witness : outC8.err = some .exhausted := by
  have hc : createSync pickFst [resSelf] (buildGraph [resSelf]) = some outC8 := rfl
  exact createSync_exhaustion pickFst [resSelf] (buildGraph [resSelf]) outC8 hc
    (by decide) (by decide)

/-! ### Field and propagation lemmas -/

theorem getD_mem {α} (l : List α) (j : Nat) (d : α) (h : j < l.length) :
    l.getD j d ∈ l := by
  have h1 : l.get? j = some (l.get ⟨j, h⟩) := List.get?_eq_get h
  unfold List.getD
  rw [h1]
  exact List.get_mem _ _ _

theorem lookup_setF_self (fs : Fields) (n v : String) :
    (setF fs n v).lookup n = some v := by
  induction fs with
  | nil => simp [setF, List.lookup]
  | cons p rest ih =>
    obtain ⟨m, w⟩ := p
    by_cases hm : m = n
    · rw [setF, if_pos hm, List.lookup, hm]
      simp
    · rw [setF, if_neg hm, List.lookup]
      have : (n == m) = false := by
        rw [beq_eq_false_iff_ne]
        exact fun he => hm he.symm
      rw [this]
      exact ih

theorem lookup_setF_ne (fs : Fields) (n v m : String) (h : m ≠ n) :
    (setF fs n v).lookup m = fs.lookup m := by
  induction fs with
  | nil =>
    simp [setF, List.lookup, show (m == n) = false from beq_eq_false_iff_ne.mpr h]
  | cons p rest ih =>
    obtain ⟨a, w⟩ := p
    by_cases ha : a = n
    · rw [setF, if_pos ha]
      have hma : (m == a) = false :=
        beq_eq_false_iff_ne.mpr (fun he => h (he.trans ha))
      simp [List.lookup, hma]
    · rw [setF, if_neg ha]
      by_cases hma : m = a
      · simp [List.lookup, show (m == a) = true from beq_iff_eq.mpr hma]
      · simp [List.lookup, show (m == a) = false from beq_eq_false_iff_ne.mpr hma, ih]

theorem getF_setF_self (fs : Fields) (n v : String) : getF (setF fs n v) n = v := by
  unfold getF
  rw [lookup_setF_self]
  rfl

theorem getF_setF_ne (fs : Fields) (n v m : String) (h : m ≠ n) :
    getF (setF fs n v) m = getF fs m := by
  unfold getF
  rw [lookup_setF_ne fs n v m h]

theorem copyValue_name (r : Res) (tf : String) (fr : Res) (ff : String) :
    (copyValue r tf fr ff).name = r.name := by
  unfold copyValue
  by_cases h : tf = "" ∨ ff = "" <;> simp [h]

theorem copyValue_deps (r : Res) (tf : String) (fr : Res) (ff : String) :
    (copyValue r tf fr ff).deps = r.deps := by
  unfold copyValue
  by_cases h : tf = "" ∨ ff = "" <;> simp [h]

theorem copyValue_upd (r : Res) (tf : String) (fr : Res) (ff : String) :
    (copyValue r tf fr ff).upd = r.upd := by
  unfold copyValue
  by_cases h : tf = "" ∨ ff = "" <;> simp [h]

theorem copyValue_del (r : Res) (tf : String) (fr : Res) (ff : String) :
    (copyValue r tf fr ff).del = r.del := by
  unfold copyValue
  by_cases h : tf = "" ∨ ff = "" <;> simp [h]

theorem copyValue_getF_ne (r : Res) (tf : String) (fr : Res) (ff : String)
    (s : String) (hs : s ≠ tf) :
    getF (copyValue r tf fr ff).fields s = getF r.fields s := by
  unfold copyValue
  by_cases h : tf = "" ∨ ff = ""
  · rw [if_pos h]
  · rw [if_neg h]
    exact getF_setF_ne _ _ _ _ hs

theorem copyValue_getF_self (r : Res) (tf : String) (fr : Res) (ff : String)
    (ht : tf ≠ "") (hf : ff ≠ "") :
    getF (copyValue r tf fr ff).fields tf = getF fr.fields ff := by
  unfold copyValue
  rw [if_neg (by simp [ht, hf])]
  exact getF_setF_self _ _ _

theorem depFold_cons (cache : List Res) (dep : Dependency) (deps : List Dependency)
    (acc : Res) :
    depFold cache (dep :: deps) acc
      = depFold cache deps
          (match cache.find? (fun s => s.name == dep.fromResource) with
           | some fromRes => copyValue acc dep.toField fromRes dep.fromField
           | none => acc) := by
  unfold depFold
  rw [List.foldl_cons]

theorem depFold_name (cache : List Res) (deps : List Dependency) :
    ∀ acc : Res, (depFold cache deps acc).name = acc.name := by
  induction deps with
  | nil => intro acc; rfl
  | cons dep rest ih =>
    intro acc
    rw [depFold_cons]
    cases cache.find? (fun s => s.name == dep.fromResource) with
    | none => exact ih acc
    | some fromRes => rw [ih _, copyValue_name]

theorem depFold_deps (cache : List Res) (deps : List Dependency) :
    ∀ acc : Res, (depFold cache deps acc).deps = acc.deps := by
  induction deps with
  | nil => intro acc; rfl
  | cons dep rest ih =>
    intro acc
    rw [depFold_cons]
    cases cache.find? (fun s => s.name == dep.fromResource) with
    | none => exact ih acc
    | some fromRes => rw [ih _, copyValue_deps]

theorem depFold_upd (cache : List Res) (deps : List Dependency) :
    ∀ acc : Res, (depFold cache deps acc).upd = acc.upd := by
  induction deps with
  | nil => intro acc; rfl
  | cons dep rest ih =>
    intro acc
    rw [depFold_cons]
    cases cache.find? (fun s => s.name == dep.fromResource) with
    | none => exact ih acc
    | some fromRes => rw [ih _, copyValue_upd]

theorem depFold_del (cache : List Res) (deps : List Dependency) :
    ∀ acc : Res, (depFold cache deps acc).del = acc.del := by
  induction deps with
  | nil => intro acc; rfl
  | cons dep rest ih =>
    intro acc
    rw [depFold_cons]
    cases cache.find? (fun s => s.name == dep.fromResource) with
    | none => exact ih acc
    | some fromRes => rw [ih _, copyValue_del]

/-- Once the propagated value for a unique-writer dependency is in
place, the rest of the fold leaves it untouched (re-copies of the same
dependency re-write the same value). -/
theorem depFold_keeps (cache : List Res) (dep0 : Dependency) (A : Res)
    (ht : dep0.toField ≠ "") (hf : dep0.fromField ≠ "")
    (hfind : cache.find? (fun s => s.name == dep0.fromResource) = some A) :
    ∀ (deps : List Dependency), (∀ d ∈ deps, d.toField = dep0.toField → d = dep0) →
    ∀ acc : Res, getF acc.fields dep0.toField = getF A.fields dep0.fromField →
      getF (depFold cache deps acc).fields dep0.toField
        = getF A.fields dep0.fromField := by
  intro deps
  induction deps with
  | nil => intro _ acc hacc; exact hacc
  | cons d rest ih =>
    intro huniq acc hacc
    rw [depFold_cons]
    by_cases hd : d.toField = dep0.toField
    · have hde : d = dep0 := huniq d (List.mem_cons_self d rest) hd
      subst hde
      rw [hfind]
      exact ih (fun d' hd' => huniq d' (List.mem_cons_of_mem d hd'))
        _ (by rw [copyValue_getF_self _ _ _ _ ht hf])
    · have hpres : ∀ fromRes, getF (copyValue acc d.toField fromRes d.fromField).fields
          dep0.toField = getF acc.fields dep0.toField := fun fromRes =>
        copyValue_getF_ne _ _ _ _ _ (fun he => hd he.symm)
      cases hfind2 : cache.find? (fun s => s.name == d.fromResource) with
      | none =>
        exact ih (fun d' hd' => huniq d' (List.mem_cons_of_mem d hd')) acc hacc
      | some fromRes =>
        exact ih (fun d' hd' => huniq d' (List.mem_cons_of_mem d hd')) _
          (by rw [hpres fromRes]; exact hacc)

/-- The value a unique-writer dependency propagates: after the fold,
the `toField` of the downstream resource holds the `fromField` of the
cached source resource. -/
theorem depFold_unique_writer (cache : List Res) (dep0 : Dependency) (A : Res)
    (ht : dep0.toField ≠ "") (hf : dep0.fromField ≠ "")
    (hfind : cache.find? (fun s => s.name == dep0.fromResource) = some A) :
    ∀ (deps : List Dependency), dep0 ∈ deps →
      (∀ d ∈ deps, d.toField = dep0.toField → d = dep0) →
    ∀ acc : Res,
      getF (depFold cache deps acc).fields dep0.toField
        = getF A.fields dep0.fromField := by
  intro deps
  induction deps with
  | nil => intro hmem; cases hmem
  | cons d rest ih =>
    intro hmem huniq acc
    rw [depFold_cons]
    rcases List.mem_cons.mp hmem with heq | hmem2
    · rw [← heq, hfind]
      exact depFold_keeps cache dep0 A ht hf hfind rest
        (fun d' hd' => huniq d' (List.mem_cons_of_mem d hd')) _
        (copyValue_getF_self _ _ _ _ ht hf)
    · cases hfind2 : cache.find? (fun s => s.name == d.fromResource) with
      | none =>
        exact ih hmem2 (fun d' hd' => huniq d' (List.mem_cons_of_mem d hd')) acc
      | some fromRes =>
        exact ih hmem2 (fun d' hd' => huniq d' (List.mem_cons_of_mem d hd')) _

/-! ### Wave lemmas -/

theorem execute_name (r : Res) (cache : List Res) :
    (execute r cache).1.name = r.name := by
  unfold execute
  exact depFold_name cache r.deps r

theorem execute_deps (r : Res) (cache : List Res) :
    (execute r cache).1.deps = r.deps := by
  unfold execute
  exact depFold_deps cache r.deps r

theorem execute_upd (r : Res) (cache : List Res) :
    (execute r cache).1.upd = r.upd := by
  unfold execute
  exact depFold_upd cache r.deps r

theorem execute_del (r : Res) (cache : List Res) :
    (execute r cache).1.del = r.del := by
  unfold execute
  exact depFold_del cache r.deps r

theorem execute_rec_name (r : Res) (cache : List Res) :
    (execute r cache).2.name = r.name := by
  unfold execute
  exact depFold_name cache r.deps r

theorem execute_rec_err (r : Res) (cache : List Res) :
    (execute r cache).2.err
      = (r.upd (depFold cache r.deps r).fields).2.2 := by
  unfold execute
  dsimp only
  rw [depFold_upd]

theorem execute_rec_status (r : Res) (cache : List Res) :
    (execute r cache).2.status
      = (r.upd (depFold cache r.deps r).fields).2.1 := by
  unfold execute
  dsimp only
  rw [depFold_upd]

theorem execute_rec_updInput (r : Res) (cache : List Res) :
    (execute r cache).2.updInput = (depFold cache r.deps r).fields := by
  unfold execute
  dsimp only

theorem execute_fields (r : Res) (cache : List Res) :
    (execute r cache).1.fields
      = (r.upd (depFold cache r.deps r).fields).1 := by
  unfold execute
  dsimp only
  rw [depFold_upd]

/-- Shape preservation relative to the original resources: same
length, and pointwise the same name, dependencies and behaviours
(only the backing fields may differ). -/
def SameShape (res0 res : List Res) : Prop :=
  res.length = res0.length
  ∧ ∀ j : Nat, (res.getD j dummyRes).name = (res0.getD j dummyRes).name
    ∧ (res.getD j dummyRes).deps = (res0.getD j dummyRes).deps
    ∧ (res.getD j dummyRes).upd = (res0.getD j dummyRes).upd
    ∧ (res.getD j dummyRes).del = (res0.getD j dummyRes).del

theorem sameShape_refl (res : List Res) : SameShape res res :=
  ⟨rfl, fun _ => ⟨rfl, rfl, rfl, rfl⟩⟩

theorem getD_set_self {α} (l : List α) (i : Nat) (v d : α) (h : i < l.length) :
    (l.set i v).getD i d = v := by
  unfold List.getD
  rw [List.get?_set_eq, List.get?_eq_get h]
  rfl

theorem getD_set_ne {α} (l : List α) (i j : Nat) (v d : α) (h : j ≠ i) :
    (l.set i v).getD j d = l.getD j d := by
  unfold List.getD
  rw [List.get?_set_ne _ _ (fun he => h he.symm)]

theorem runWaveGo_length (cache : List Res) :
    ∀ (el : List Nat) (res : List Res),
      (runWaveGo cache res el).1.length = res.length := by
  intro el
  induction el with
  | nil => intro res; rfl
  | cons i rest ih =>
    intro res
    rw [runWaveGo]
    dsimp only
    rw [ih]
    exact List.length_set res i _

theorem runWaveGo_untouched (cache : List Res) :
    ∀ (el : List Nat) (res : List Res) (j : Nat), j ∉ el →
      (runWaveGo cache res el).1.getD j dummyRes = res.getD j dummyRes := by
  intro el
  induction el with
  | nil => intro res j _; rfl
  | cons i rest ih =>
    intro res j hj
    rw [runWaveGo]
    dsimp only
    rw [ih _ _ (fun h => hj (List.mem_cons_of_mem i h))]
    exact getD_set_ne _ _ _ _ _ (fun he => hj (he ▸ List.mem_cons_self i rest))

theorem runWaveGo_spec (cache : List Res) :
    ∀ (el : List Nat) (res : List Res), el.Nodup → (∀ i ∈ el, i < res.length) →
      (runWaveGo cache res el).2
        = el.map (fun i => (execute (res.getD i dummyRes) cache).2)
      ∧ ∀ i ∈ el, (runWaveGo cache res el).1.getD i dummyRes
          = (execute (res.getD i dummyRes) cache).1 := by
  intro el
  induction el with
  | nil =>
    intro res _ _
    exact ⟨rfl, fun i hi => absurd hi (List.not_mem_nil i)⟩
  | cons i rest ih =>
    intro res hnd hlt
    have hnotin : i ∉ rest := (List.nodup_cons.mp hnd).1
    have hset : ∀ j ∈ rest, (res.set i (execute (res.getD i dummyRes) cache).1).getD j dummyRes
        = res.getD j dummyRes := by
      intro j hj
      exact getD_set_ne _ _ _ _ _ (fun he => hnotin (he ▸ hj))
    have hlen : ∀ j ∈ rest, j < (res.set i (execute (res.getD i dummyRes) cache).1).length := by
      intro j hj
      rw [List.length_set]
      exact hlt j (List.mem_cons_of_mem i hj)
    obtain ⟨ih1, ih2⟩ := ih (res.set i (execute (res.getD i dummyRes) cache).1)
      (List.nodup_cons.mp hnd).2 hlen
    constructor
    · rw [runWaveGo]
      dsimp only
      rw [ih1, List.map_cons]
      congr 1
      apply List.map_congr_left
      intro j hj
      rw [hset j hj]
    · intro j hj
      rcases List.mem_cons.mp hj with heq | hj2
      · subst heq
        rw [runWaveGo]
        dsimp only
        rw [runWaveGo_untouched cache rest _ j hnotin]
        exact getD_set_self _ _ _ _ (hlt j (List.mem_cons_self j rest))
      · rw [runWaveGo]
        dsimp only
        rw [ih2 j hj2, hset j hj2]

theorem runWaveGo_sameShape (cache : List Res) :
    ∀ (el : List Nat) (res0 res : List Res), SameShape res0 res →
      SameShape res0 (runWaveGo cache res el).1 := by
  intro el
  induction el with
  | nil => intro res0 res h; exact h
  | cons i rest ih =>
    intro res0 res h
    rw [runWaveGo]
    dsimp only
    apply ih
    constructor
    · rw [List.length_set]
      exact h.1
    · intro j
      by_cases hj : j = i
      · subst hj
        by_cases hlt : j < res.length
        · rw [getD_set_self _ _ _ _ hlt]
          have h2 := h.2 j
          refine ⟨?_, ?_, ?_, ?_⟩
          · rw [execute_name]; exact h2.1
          · rw [execute_deps]; exact h2.2.1
          · rw [execute_upd]; exact h2.2.2.1
          · rw [execute_del]; exact h2.2.2.2
        · rw [List.set_eq_of_length_le (by omega)]
          exact h.2 j
      · rw [getD_set_ne _ _ _ _ _ hj]
        exact h.2 j

/-! ### Name and cache lemmas -/

theorem getD_eq_get {α} (l : List α) (d : α) {j : Nat} (h : j < l.length) :
    l.getD j d = l.get ⟨j, h⟩ := by
  unfold List.getD
  rw [List.get?_eq_get h]
  rfl

theorem nameIdx_inj {res0 : List Res} (hnd : (res0.map Res.name).Nodup)
    {i j : Nat} (hi : i < res0.length) (hj : j < res0.length)
    (he : (res0.getD i dummyRes).name = (res0.getD j dummyRes).name) : i = j := by
  have hli : i < (res0.map Res.name).length := by rw [List.length_map]; exact hi
  have hlj : j < (res0.map Res.name).length := by rw [List.length_map]; exact hj
  have hmi : (res0.map Res.name).get ⟨i, hli⟩ = (res0.map Res.name).get ⟨j, hlj⟩ := by
    rw [List.get_map, List.get_map]
    show (res0.get ⟨i, _⟩).name = (res0.get ⟨j, _⟩).name
    rw [← getD_eq_get res0 dummyRes hi, ← getD_eq_get res0 dummyRes hj]
    exact he
  have hfe := (List.Nodup.get_inj_iff hnd).mp hmi
  have hv := congrArg Fin.val hfe
  simpa using hv

theorem builtName_iff (res : List Res) (done : List Nat) (x : String) :
    builtName res done x = true ↔ ∃ j ∈ done, (res.getD j dummyRes).name = x := by
  unfold builtName
  rw [List.any_eq_true]
  constructor
  · rintro ⟨j, hj, hbeq⟩
    exact ⟨j, hj, beq_iff_eq.mp hbeq⟩
  · rintro ⟨j, hj, he⟩
    exact ⟨j, hj, beq_iff_eq.mpr he⟩

theorem builtName_congr {res0 res : List Res} (hshape : SameShape res0 res)
    (done : List Nat) (x : String) :
    builtName res done x = builtName res0 done x := by
  unfold builtName
  congr 1
  funext j
  rw [(hshape.2 j).1]

theorem scanExec_congr {res0 res : List Res} (hshape : SameShape res0 res)
    (done : List Nat) : ∀ l : List Nat, scanExec res done l = scanExec res0 done l := by
  intro l
  induction l with
  | nil => rfl
  | cons i rest ih =>
    rw [scanExec, scanExec]
    rw [(hshape.2 i).1, builtName_congr hshape, (hshape.2 i).2.1,
      show (fun dep : Dependency => builtName res done dep.fromResource)
          = (fun dep : Dependency => builtName res0 done dep.fromResource) from
        funext (fun dep => builtName_congr hshape done dep.fromResource),
      ih]

theorem scanExec_sublist (res : List Res) (done : List Nat) :
    ∀ l : List Nat, (scanExec res done l).Sublist l := by
  intro l
  induction l with
  | nil => exact List.Sublist.refl []
  | cons i rest ih =>
    rw [scanExec]
    by_cases hb : builtName res done ((res.getD i dummyRes).name)
    · rw [if_pos hb]
      exact ih.cons i
    · rw [if_neg hb]
      by_cases hr : (res.getD i dummyRes).deps.all
          (fun dep => builtName res done dep.fromResource)
      · rw [if_pos hr]
        exact ih.cons₂ i
      · rw [if_neg hr]
        exact List.nil_sublist _

theorem scanExec_ready (res : List Res) (done : List Nat) :
    ∀ l : List Nat, ∀ i ∈ scanExec res done l,
      builtName res done ((res.getD i dummyRes).name) = false
      ∧ (res.getD i dummyRes).deps.all
          (fun dep => builtName res done dep.fromResource) = true := by
  intro l
  induction l with
  | nil => intro i hi; cases hi
  | cons a rest ih =>
    intro i hi
    rw [scanExec] at hi
    by_cases hb : builtName res done ((res.getD a dummyRes).name)
    · rw [if_pos hb] at hi
      exact ih i hi
    · rw [if_neg hb] at hi
      by_cases hr : (res.getD a dummyRes).deps.all
          (fun dep => builtName res done dep.fromResource)
      · rw [if_pos hr] at hi
        rcases List.mem_cons.mp hi with heq | hi2
        · subst heq
          exact ⟨Bool.not_eq_true _ ▸ (by simpa using hb), hr⟩
        · exact ih i hi2
      · rw [if_neg hr] at hi
        cases hi

theorem scanExec_skip (res : List Res) (done : List Nat) :
    ∀ pre todo : List Nat,
      (∀ i ∈ pre, builtName res done ((res.getD i dummyRes).name) = true) →
      scanExec res done (pre ++ todo) = scanExec res done todo := by
  intro pre
  induction pre with
  | nil => intro todo _; rfl
  | cons a rest ih =>
    intro todo h
    rw [List.cons_append, scanExec, if_pos (h a (List.mem_cons_self a rest))]
    exact ih todo (fun i hi => h i (List.mem_cons_of_mem a hi))

theorem scanExec_collect (res : List Res) (done : List Nat) :
    ∀ todo : List Nat,
      (∀ i ∈ todo, builtName res done ((res.getD i dummyRes).name) = false) →
      scanExec res done todo
        = todo.takeWhile (fun i => (res.getD i dummyRes).deps.all
            (fun dep => builtName res done dep.fromResource)) := by
  intro todo
  induction todo with
  | nil => intro _; rfl
  | cons a rest ih =>
    intro h
    rw [scanExec, List.takeWhile_cons]
    rw [if_neg (by rw [h a (List.mem_cons_self a rest)]; simp)]
    by_cases hr : (res.getD a dummyRes).deps.all
        (fun dep => builtName res done dep.fromResource)
    · rw [if_pos hr, if_pos hr, ih (fun i hi => h i (List.mem_cons_of_mem a hi))]
    · rw [if_neg hr, if_neg hr]

theorem takeWhile_eq_take {α} (p : α → Bool) :
    ∀ l : List α, l.takeWhile p = l.take (l.takeWhile p).length := by
  intro l
  induction l with
  | nil => rfl
  | cons a rest ih =>
    rw [List.takeWhile_cons]
    by_cases hp : p a
    · rw [if_pos hp, List.length_cons, List.take_succ_cons, ← ih]
    · rw [if_neg hp]
      rfl

theorem mkCache_find {res0 res : List Res} (hshape : SameShape res0 res)
    (hnd : (res0.map Res.name).Nodup)
    {iA : Nat} (hiA : iA < res0.length) :
    ∀ done : List Nat, (∀ j ∈ done, j < res0.length) → iA ∈ done →
      (mkCache res done).find?
          (fun s => s.name == (res0.getD iA dummyRes).name)
        = some (res.getD iA dummyRes) := by
  intro done
  induction done with
  | nil => intro _ hmem; cases hmem
  | cons j rest ih =>
    intro hlt hmem
    unfold mkCache
    rw [List.map_cons]
    by_cases hj : (res.getD j dummyRes).name = (res0.getD iA dummyRes).name
    · rw [List.find?_cons_of_pos _ (by simpa using hj)]
      have hj2 : (res0.getD j dummyRes).name = (res0.getD iA dummyRes).name := by
        rw [← (hshape.2 j).1]
        exact hj
      have : j = iA := nameIdx_inj hnd (hlt j (List.mem_cons_self j rest)) hiA hj2
      rw [this]
    · rw [List.find?_cons_of_neg _ (by simpa using hj)]
      have hmem2 : iA ∈ rest := by
        rcases List.mem_cons.mp hmem with heq | h2
        · subst heq
          exact absurd (hshape.2 _).1 hj
        · exact h2
      exact ih (fun k hk => hlt k (List.mem_cons_of_mem j hk)) hmem2

theorem insertA_lookup_self (st : List (String × String)) (k v : String) :
    (insertA st k v).lookup k = some v := by
  induction st with
  | nil => simp [insertA, List.lookup]
  | cons p rest ih =>
    obtain ⟨a, b⟩ := p
    by_cases ha : a = k
    · rw [insertA, if_pos ha]
      simp [List.lookup, show (k == a) = true from beq_iff_eq.mpr ha.symm]
    · rw [insertA, if_neg ha]
      simp [List.lookup, show (k == a) = false from
        beq_eq_false_iff_ne.mpr (fun he => ha he.symm), ih]

theorem insertA_lookup_ne (st : List (String × String)) (k v m : String) (h : m ≠ k) :
    (insertA st k v).lookup m = st.lookup m := by
  induction st with
  | nil => simp [insertA, List.lookup, show (m == k) = false from beq_eq_false_iff_ne.mpr h]
  | cons p rest ih =>
    obtain ⟨a, b⟩ := p
    by_cases ha : a = k
    · rw [insertA, if_pos ha]
      by_cases hma : m = a
      · exact absurd (hma.trans ha) h
      · simp [List.lookup, show (m == a) = false from beq_eq_false_iff_ne.mpr hma]
    · rw [insertA, if_neg ha]
      by_cases hma : m = a
      · simp [List.lookup, show (m == a) = true from beq_iff_eq.mpr hma]
      · simp [List.lookup, show (m == a) = false from beq_eq_false_iff_ne.mpr hma, ih]

theorem statusAdd_cons (st : List (String × String)) (rec : ExecRecord)
    (recs : List ExecRecord) :
    statusAdd st (rec :: recs)
      = statusAdd (if rec.status = "" then st else insertA st rec.name rec.status) recs := by
  unfold statusAdd
  rw [List.foldl_cons]

theorem statusAdd_lookup_notin (recs : List ExecRecord) :
    ∀ (st : List (String × String)) (m : String),
      (∀ rec ∈ recs, rec.name ≠ m) →
      (statusAdd st recs).lookup m = st.lookup m := by
  induction recs with
  | nil => intro st m _; rfl
  | cons rec rest ih =>
    intro st m h
    rw [statusAdd_cons]
    rw [ih _ m (fun r hr => h r (List.mem_cons_of_mem rec hr))]
    by_cases hs : rec.status = ""
    · rw [if_pos hs]
    · rw [if_neg hs]
      exact insertA_lookup_ne _ _ _ _ (fun he => h rec (List.mem_cons_self rec rest) he.symm)

theorem statusAdd_lookup_mem (recs : List ExecRecord) :
    ∀ (st : List (String × String)),
      (recs.map ExecRecord.name).Nodup →
      ∀ rec ∈ recs, rec.status ≠ "" →
      (statusAdd st recs).lookup rec.name = some rec.status := by
  induction recs with
  | nil => intro st _ rec hrec; cases hrec
  | cons r rest ih =>
    intro st hnd rec hrec hst
    rw [List.map_cons, List.nodup_cons] at hnd
    rw [statusAdd_cons]
    rcases List.mem_cons.mp hrec with heq | hmem
    · subst heq
      rw [if_neg hst]
      rw [statusAdd_lookup_notin rest _ _ (fun r2 hr2 he => hnd.1 (by
        rw [← he]
        exact List.mem_map_of_mem ExecRecord.name hr2))]
      exact insertA_lookup_self st rec.name rec.status
    · exact ih _ hnd.2 rec hmem hst

theorem waveErrs_nil_of_none (recs : List ExecRecord)
    (h : ∀ rec ∈ recs, rec.err = none) : waveErrs recs = [] := by
  unfold waveErrs
  rw [List.filterMap_eq_nil]
  intro rec hrec
  rw [h rec hrec]
  rfl

theorem doneAdditions_all_ok (execList : List Nat) (recs : List ExecRecord)
    (hlen : recs.length = execList.length)
    (h : ∀ rec ∈ recs, rec.err = none) : doneAdditions execList recs = execList := by
  unfold doneAdditions
  induction execList generalizing recs with
  | nil => simp
  | cons i rest ih =>
    cases recs with
    | nil => simp at hlen
    | cons rec rrest =>
      rw [List.zip_cons_cons, List.filterMap_cons]
      rw [h rec (List.mem_cons_self rec rrest)]
      dsimp only
      rw [if_pos rfl]
      rw [ih rrest (by simpa using hlen) (fun r hr => h r (List.mem_cons_of_mem rec hr))]

/-! ### Value propagation (claim C2) -/

theorem waveErrs_none (recs : List ExecRecord) (h : waveErrs recs = []) :
    ∀ rec ∈ recs, rec.err = none := by
  unfold waveErrs at h
  rw [List.filterMap_eq_nil] at h
  intro rec hrec
  cases he : rec.err with
  | none => rfl
  | some e =>
    have h2 := h rec hrec
    rw [he] at h2
    exact absurd h2 (by simp)

theorem count_map_one {α β : Type} [DecidableEq β] (f : α → β) :
    ∀ l : List α, l.Nodup → ∀ a, a ∈ l → (∀ b ∈ l, f b = f a → b = a) →
      (l.map f).count (f a) = 1 := by
  intro l
  induction l with
  | nil => intro _ a ha _; cases ha
  | cons x rest ih =>
    intro hnd a ha hinj
    rw [List.map_cons]
    rcases List.mem_cons.mp ha with heq | hmem
    · subst heq
      rw [List.count_cons_self]
      have hz : (rest.map f).count (f a) = 0 := by
        rw [List.count_eq_zero]
        intro hmf
        obtain ⟨b, hb, hfb⟩ := List.mem_map.mp hmf
        have hba := hinj b (List.mem_cons_of_mem a hb) hfb
        rw [hba] at hb
        exact (List.nodup_cons.mp hnd).1 hb
      rw [hz]
    · have hxa : f a ≠ f x := by
        intro hfe
        have hx : x = a := hinj x (List.mem_cons_self x rest) hfe.symm
        exact (List.nodup_cons.mp hnd).1 (by rw [hx]; exact hmem)
      rw [List.count_cons_of_ne hxa]
      exact ih (List.nodup_cons.mp hnd).2 a hmem
        (fun b hb he => hinj b (List.mem_cons_of_mem x hb) he)

/-- Whenever `sort` returns an order at all, that order is a
permutation of all the vertices (this does not need acyclicity). -/
theorem sort_ok_perm (g : Graph) (pick : List (Nat × Int) → Nat) (hwf : g.WF)
    (l : List Nat) (h : sort g pick = .ok l) : l.Perm (List.range g.v) := by
  unfold sort at h
  obtain ⟨l2, he, hperm, _⟩ := sortLoop_ok_spec g pick hwf g.v (initNeighbours g) [] l
    (sortInv_init g) h
  rw [he, List.nil_append]
  rw [keysOf_init] at hperm
  exact hperm

theorem builtName_of_mem (res : List Res) (done : List Nat) (j : Nat) (hj : j ∈ done) :
    builtName res done ((res.getD j dummyRes).name) = true :=
  (builtName_iff _ _ _).mpr ⟨j, hj, rfl⟩

theorem done_cover (ordered done : List Nat) (hnd : done.Nodup)
    (hsub : ∀ j ∈ done, j ∈ ordered) (hlen : ordered.length ≤ done.length) :
    ∀ i ∈ ordered, i ∈ done := by
  have hsp : List.Subperm done ordered := hnd.subperm (fun a ha => hsub a ha)
  have hp := hsp.perm_of_length_le hlen
  intro i hi
  exact hp.mem_iff.mpr hi

/-- Loop invariant for the value-propagation analysis of `createSync`:
the resource shapes are preserved, the built indices are distinct,
in-range members of the topological order, the execution records'
names trace exactly the built indices, every built resource holds the
output of its `Update` on its recorded input, and once the downstream
resource `iB` is built, its source `iA` is built too and `iB`'s record
carries the propagated value of the unique-writer dependency `dep0`
(the value `iA`'s backing field holds, frozen from the wave `iA` was
built in). -/
def C2Inv (res0 : List Res) (ordered : List Nat) (iA iB : Nat) (dep0 : Dependency)
    (res : List Res) (done : List Nat) (waves : List (List ExecRecord)) : Prop :=
  SameShape res0 res
  ∧ done.Nodup
  ∧ (∀ j ∈ done, j < res0.length)
  ∧ (∀ j ∈ done, j ∈ ordered)
  ∧ (List.join waves).map ExecRecord.name
      = done.map (fun j => (res0.getD j dummyRes).name)
  ∧ (∀ j ∈ done, ∃ rec ∈ List.join waves,
      rec.name = (res0.getD j dummyRes).name
      ∧ (res.getD j dummyRes).fields = ((res0.getD j dummyRes).upd rec.updInput).1)
  ∧ (iB ∈ done → iA ∈ done
      ∧ ∃ rec ∈ List.join waves,
          rec.name = (res0.getD iB dummyRes).name
          ∧ getF rec.updInput dep0.toField
              = getF ((res.getD iA dummyRes).fields) dep0.fromField
          ∧ (res.getD iB dummyRes).fields
              = ((res0.getD iB dummyRes).upd rec.updInput).1)

theorem c2_step (res0 : List Res) (ordered : List Nat) (iA iB : Nat) (dep0 : Dependency)
    (hnd : (res0.map Res.name).Nodup)
    (hordnd : ordered.Nodup) (hordlt : ∀ i ∈ ordered, i < res0.length)
    (hiA : iA < res0.length)
    (hdep : dep0 ∈ (res0.getD iB dummyRes).deps)
    (hfrom : dep0.fromResource = (res0.getD iA dummyRes).name)
    (ht : dep0.toField ≠ "") (hf : dep0.fromField ≠ "")
    (huniq : ∀ d ∈ (res0.getD iB dummyRes).deps, d.toField = dep0.toField → d = dep0)
    (res : List Res) (done : List Nat) (waves : List (List ExecRecord))
    (hinv : C2Inv res0 ordered iA iB dep0 res done waves)
    (el : List Nat) (hel : el = scanExec res done ordered)
    (wv : List Res × List ExecRecord) (hwv : wv = runWave res done el)
    (herrs : waveErrs wv.2 = []) :
    C2Inv res0 ordered iA iB dep0 wv.1 (done ++ el) (waves ++ [wv.2])
    ∧ doneAdditions el wv.2 = el := by
  obtain ⟨hshape, hdnd, hdlt, hdord, hmapn, hrec, hB⟩ := hinv
  have hsubl : List.Sublist el ordered := by
    rw [hel]; exact scanExec_sublist res done ordered
  have helnd : el.Nodup := hordnd.sublist hsubl
  have hellt : ∀ i ∈ el, i < res0.length := fun i hi => hordlt i (hsubl.subset hi)
  have helord : ∀ i ∈ el, i ∈ ordered := fun i hi => hsubl.subset hi
  have hdisj : ∀ i ∈ el, i ∉ done := by
    intro i hi hid
    have h1 := (scanExec_ready res done ordered i (by rw [← hel]; exact hi)).1
    have h2 := builtName_of_mem res done i hid
    rw [h1] at h2
    exact Bool.noConfusion h2
  have hlt2 : ∀ i ∈ el, i < res.length := by
    rw [hshape.1]; exact hellt
  obtain ⟨hspec1, hspec2⟩ := runWaveGo_spec (mkCache res done) el res helnd hlt2
  have hwv2 : wv.2 = el.map (fun i => (execute (res.getD i dummyRes) (mkCache res done)).2) := by
    rw [hwv]; exact hspec1
  have hwv1 : ∀ i ∈ el, wv.1.getD i dummyRes
      = (execute (res.getD i dummyRes) (mkCache res done)).1 := by
    rw [hwv]; exact hspec2
  have herrnone : ∀ rec ∈ wv.2, rec.err = none := waveErrs_none _ herrs
  have hda : doneAdditions el wv.2 = el :=
    doneAdditions_all_ok el wv.2 (by rw [hwv2, List.length_map]) herrnone
  have huntouched : ∀ j, j ∉ el → wv.1.getD j dummyRes = res.getD j dummyRes := by
    intro j hj
    rw [hwv]
    exact runWaveGo_untouched _ el res j hj
  have hshape' : SameShape res0 wv.1 := by
    rw [hwv]; exact runWaveGo_sameShape _ el res0 res hshape
  have hjoin : List.join (waves ++ [wv.2]) = List.join waves ++ wv.2 := by simp
  have hwvnames : wv.2.map ExecRecord.name = el.map (fun j => (res0.getD j dummyRes).name) := by
    rw [hwv2, List.map_map]
    apply List.map_congr_left
    intro i _
    show (execute (res.getD i dummyRes) (mkCache res done)).2.name = _
    rw [execute_rec_name]
    exact (hshape.2 i).1
  refine ⟨⟨hshape', ?_, ?_, ?_, ?_, ?_, ?_⟩, hda⟩
  · rw [List.nodup_append]
    exact ⟨hdnd, helnd, fun a ha hael => hdisj a hael ha⟩
  · intro j hj
    rcases List.mem_append.mp hj with h1 | h1
    · exact hdlt j h1
    · exact hellt j h1
  · intro j hj
    rcases List.mem_append.mp hj with h1 | h1
    · exact hdord j h1
    · exact helord j h1
  · rw [hjoin, List.map_append, hmapn, hwvnames, List.map_append]
  · intro j hj
    rcases List.mem_append.mp hj with h1 | h1
    · obtain ⟨rec, hrm, hname, hfield⟩ := hrec j h1
      refine ⟨rec, by rw [hjoin]; exact List.mem_append_left _ hrm, hname, ?_⟩
      rw [huntouched j (fun hjel => hdisj j hjel h1)]
      exact hfield
    · refine ⟨(execute (res.getD j dummyRes) (mkCache res done)).2, ?_, ?_, ?_⟩
      · rw [hjoin]
        apply List.mem_append_right
        rw [hwv2]
        exact List.mem_map_of_mem _ h1
      · rw [execute_rec_name]
        exact (hshape.2 j).1
      · rw [hwv1 j h1, execute_fields, (hshape.2 j).2.2.1, ← execute_rec_updInput]
  · intro hiBd
    rcases List.mem_append.mp hiBd with h1 | h1
    · obtain ⟨hiAd, rec, hrm, hname, heqv, hfield⟩ := hB h1
      have hiAnotel : iA ∉ el := fun hael => hdisj iA hael hiAd
      have hiBnotel : iB ∉ el := fun hbel => hdisj iB hbel h1
      refine ⟨List.mem_append_left _ hiAd,
        rec, by rw [hjoin]; exact List.mem_append_left _ hrm, hname, ?_, ?_⟩
      · rw [huntouched iA hiAnotel]
        exact heqv
      · rw [huntouched iB hiBnotel]
        exact hfield
    · have hready := (scanExec_ready res done ordered iB (by rw [← hel]; exact h1)).2
      have hdep2 : dep0 ∈ (res.getD iB dummyRes).deps := by
        rw [(hshape.2 iB).2.1]; exact hdep
      have hbuiltA : builtName res done dep0.fromResource = true := by
        have := List.all_eq_true.mp hready dep0 hdep2
        simpa using this
      obtain ⟨j, hjdone, hjname⟩ := (builtName_iff res done dep0.fromResource).mp hbuiltA
      have hjA : j = iA := by
        apply nameIdx_inj hnd (hdlt j hjdone) hiA
        rw [← (hshape.2 j).1, hjname, hfrom]
      have hiAd : iA ∈ done := by rw [← hjA]; exact hjdone
      have hiAnotel : iA ∉ el := fun hael => hdisj iA hael hiAd
      have hfind : (mkCache res done).find? (fun s => s.name == dep0.fromResource)
          = some (res.getD iA dummyRes) := by
        rw [hfrom]
        exact mkCache_find hshape hnd hiA done hdlt hiAd
      have huniq2 : ∀ d ∈ (res.getD iB dummyRes).deps, d.toField = dep0.toField → d = dep0 := by
        rw [(hshape.2 iB).2.1]; exact huniq
      refine ⟨List.mem_append_left _ hiAd,
        (execute (res.getD iB dummyRes) (mkCache res done)).2, ?_, ?_, ?_, ?_⟩
      · rw [hjoin]
        apply List.mem_append_right
        rw [hwv2]
        exact List.mem_map_of_mem _ h1
      · rw [execute_rec_name]
        exact (hshape.2 iB).1
      · rw [execute_rec_updInput, huntouched iA hiAnotel]
        exact depFold_unique_writer (mkCache res done) dep0 (res.getD iA dummyRes)
          ht hf hfind _ hdep2 huniq2 _
      · rw [hwv1 iB h1, execute_fields, (hshape.2 iB).2.2.1, ← execute_rec_updInput]

theorem c2_loop (res0 : List Res) (ordered : List Nat) (iA iB : Nat) (dep0 : Dependency)
    (hnd : (res0.map Res.name).Nodup)
    (hordnd : ordered.Nodup) (hordlt : ∀ i ∈ ordered, i < res0.length)
    (hiA : iA < res0.length)
    (hdep : dep0 ∈ (res0.getD iB dummyRes).deps)
    (hfrom : dep0.fromResource = (res0.getD iA dummyRes).name)
    (ht : dep0.toField ≠ "") (hf : dep0.fromField ≠ "")
    (huniq : ∀ d ∈ (res0.getD iB dummyRes).deps, d.toField = dep0.toField → d = dep0) :
    ∀ (fuel : Nat) (res : List Res) (done : List Nat)
      (status : List (String × String)) (left : Int) (waves : List (List ExecRecord)),
      C2Inv res0 ordered iA iB dep0 res done waves →
      left = (ordered.length : Int) - done.length →
      (createLoop ordered fuel res done status left waves).err = none →
      ∃ done2, C2Inv res0 ordered iA iB dep0
          (createLoop ordered fuel res done status left waves).res done2
          (createLoop ordered fuel res done status left waves).waves
        ∧ ∀ i ∈ ordered, i ∈ done2 := by
  intro fuel
  induction fuel with
  | zero =>
    intro res done status left waves hinv hleft h
    rw [createLoop_zero] at h ⊢
    dsimp only at h ⊢
    by_cases hl : left > 0
    · rw [if_pos hl] at h
      exact Option.noConfusion h
    · refine ⟨done, hinv, ?_⟩
      have hlen : ordered.length ≤ done.length := by omega
      exact done_cover ordered done hinv.2.1 hinv.2.2.2.1 hlen
  | succ n ih =>
    intro res done status left waves hinv hleft h
    rw [createLoop_succ] at h ⊢
    by_cases hl : left ≤ 0
    · rw [if_pos hl] at h ⊢
      dsimp only at h ⊢
      refine ⟨done, hinv, ?_⟩
      have hlen : ordered.length ≤ done.length := by omega
      exact done_cover ordered done hinv.2.1 hinv.2.2.2.1 hlen
    · rw [if_neg hl] at h ⊢
      dsimp only at h ⊢
      by_cases herrs : (waveErrs (runWave res done (scanExec res done ordered)).2).isEmpty
      · rw [if_pos herrs] at h ⊢
        have herrs2 : waveErrs (runWave res done (scanExec res done ordered)).2 = [] :=
          List.isEmpty_iff.mp herrs
        obtain ⟨hinv2, hda⟩ := c2_step res0 ordered iA iB dep0 hnd hordnd hordlt hiA
          hdep hfrom ht hf huniq res done waves
          ⟨hinv.1, hinv.2.1, hinv.2.2.1, hinv.2.2.2.1, hinv.2.2.2.2.1,
            hinv.2.2.2.2.2.1, hinv.2.2.2.2.2.2⟩
          (scanExec res done ordered) rfl
          (runWave res done (scanExec res done ordered)) rfl herrs2
        rw [hda] at h ⊢
        apply ih _ _ _ _ _ hinv2 _ h
        rw [herrs2]
        rw [List.length_append]
        push_cast
        simp only [List.length_nil]
        omega
      · rw [if_neg herrs] at h
        dsimp only at h
        exact Option.noConfusion h

/-- Claim C2 (amended): for a dependency of resource `iB` on resource
`iA` with both `fromField` and `toField` set (and no other dependency
of `iB` writing the same `toField`), a successful construction run
executes `iB` exactly once, and the backing fields `iB`'s `Update`
received as input hold, in `toField`, exactly the value `iA`'s
`fromField` holds after `iA`'s own successful `Update` (the copy is
performed by `execute` before `Update` is invoked, once per
dependency).  `iB`'s final backing fields are whatever its `Update`
returned on that input — the claim's assertion that `iB`'s `toField`
still equals the copied value after Sync holds only when `Update`
preserves that field (see the counterexample). -/
theorem createSync_value_propagation (pick : List (Nat × Int) → Nat)
    (res0 : List Res) (g : Graph) (out : CreateOut)
    (hnd : (res0.map Res.name).Nodup) (hwf : g.WF) (hv : g.v = res0.length)
    (hout : createSync pick res0 g = some out) (herr : out.err = none)
    (iA iB : Nat) (hiA : iA < res0.length) (hiB : iB < res0.length)
    (dep0 : Dependency)
    (hdep : dep0 ∈ (res0.getD iB dummyRes).deps)
    (hfrom : dep0.fromResource = (res0.getD iA dummyRes).name)
    (ht : dep0.toField ≠ "") (hf : dep0.fromField ≠ "")
    (huniq : ∀ d ∈ (res0.getD iB dummyRes).deps, d.toField = dep0.toField → d = dep0) :
    ∃ rec ∈ List.join out.waves,
      rec.name = (res0.getD iB dummyRes).name
      ∧ getF rec.updInput dep0.toField
          = getF ((out.res.getD iA dummyRes).fields) dep0.fromField
      ∧ (out.res.getD iB dummyRes).fields = ((res0.getD iB dummyRes).upd rec.updInput).1
      ∧ ((List.join out.waves).map ExecRecord.name).count ((res0.getD iB dummyRes).name) = 1
      ∧ ∃ recA ∈ List.join out.waves,
          recA.name = (res0.getD iA dummyRes).name
          ∧ (out.res.getD iA dummyRes).fields
              = ((res0.getD iA dummyRes).upd recA.updInput).1 := by
  unfold createSync at hout
  cases hs : sort g pick with
  | panicked => rw [hs] at hout; exact Option.noConfusion hout
  | spin => rw [hs] at hout; exact Option.noConfusion hout
  | ok ordered =>
    rw [hs] at hout
    dsimp only at hout
    have hco := Option.some.inj hout
    have hperm : ordered.Perm (List.range res0.length) := by
      rw [← hv]
      exact sort_ok_perm g pick hwf ordered hs
    have hordnd : ordered.Nodup := hperm.nodup_iff.mpr (List.nodup_range _)
    have hordlt : ∀ i ∈ ordered, i < res0.length := by
      intro i hi
      exact List.mem_range.mp (hperm.mem_iff.mp hi)
    have hbase : C2Inv res0 ordered iA iB dep0 res0 [] [] := by
      refine ⟨sameShape_refl res0, List.nodup_nil, ?_, ?_, rfl, ?_, ?_⟩
      · intro j hj; cases hj
      · intro j hj; cases hj
      · intro j hj; cases hj
      · intro hj; cases hj
    obtain ⟨done2, hinv2, hcover⟩ := c2_loop res0 ordered iA iB dep0 hnd hordnd hordlt
      hiA hdep hfrom ht hf huniq ordered.length res0 [] [] (ordered.length : Int) []
      hbase (by simp) (by rw [hco]; exact herr)
    rw [hco] at hinv2
    have hiBord : iB ∈ ordered := hperm.mem_iff.mpr (List.mem_range.mpr hiB)
    have hiBdone : iB ∈ done2 := hcover iB hiBord
    obtain ⟨hiAdone, rec, hrm, hname, heqv, hfieldB⟩ := hinv2.2.2.2.2.2.2 hiBdone
    obtain ⟨recA, hrmA, hnameA, hfieldA⟩ := hinv2.2.2.2.2.2.1 iA hiAdone
    refine ⟨rec, hrm, hname, heqv, hfieldB, ?_, recA, hrmA, hnameA, hfieldA⟩
    rw [hinv2.2.2.2.2.1]
    exact count_map_one _ done2 hinv2.2.1 iB hiBdone
      (fun b hb he => nameIdx_inj hnd (hinv2.2.2.1 b hb) hiB he)

/-- A two-resource chain: `b` depends on `a` with the value of `a.f`
propagated into `b.t`; `a`'s update writes "hello" into `a.f`, `b`'s
update leaves its fields alone. -/
def resA2 : Res := ⟨"a", [], [("f", "")], fun fs => (setF fs "f" "hello", "sA", none), none⟩

def resB2 : Res := ⟨"b", [⟨"a", "f", "t"⟩], [("t", "")], fun fs => (fs, "sB", none), none⟩

/-- Like `resB2`, but its update overwrites the propagated field. -/
def resB2bad : Res :=
  ⟨"b", [⟨"a", "f", "t"⟩], [("t", "")], fun fs => (setF fs "t" "junk", "sB", none), none⟩

/-- The dependency graph of the chain (edge `a` → `b`). -/
def graphAB : Graph := ⟨2, [[1], []]⟩

def outC2 : CreateOut :=
  (createSync pickFst [resA2, resB2] graphAB).getD ⟨[], none, [], [], 0⟩

def outC2bad : CreateOut :=
  (createSync pickFst [resA2, resB2bad] graphAB).getD ⟨[], none, [], [], 0⟩

/-- Counterexample for claim C2: the resource set `[resA2, resB2bad]`
passes validation and constructs without error, `a.f` ends as
"hello", and `execute` did copy that value into `b.t` before invoking
`b`'s update — but `b`'s update then overwrote the field, so after the
successful run `b`'s `toField` does not equal `a`'s `fromField` value. -/
theorem createSync_value_overwrite_cex :
    check [resA2, resB2bad] = none
    ∧ outC2bad.err = none
    ∧ getF ((outC2bad.res.getD 0 dummyRes).fields) "f" = "hello"
    ∧ getF ((outC2bad.res.getD 1 dummyRes).fields) "t" = "junk"
    ∧ getF ((outC2bad.res.getD 1 dummyRes).fields) "t"
        ≠ getF ((outC2bad.res.getD 0 dummyRes).fields) "f" :=
  ⟨rfl, rfl, rfl, rfl, by decide⟩

/-- Witness for the amended claim C2 on the concrete chain. -/
theorem createSync_value_propagation_witness :
    ∃ rec ∈ List.join outC2.waves,
      rec.name = ([resA2, resB2].getD 1 dummyRes).name
      ∧ getF rec.updInput "t" = getF ((outC2.res.getD 0 dummyRes).fields) "f"
      ∧ (outC2.res.getD 1 dummyRes).fields
          = (([resA2, resB2].getD 1 dummyRes).upd rec.updInput).1
      ∧ ((List.join outC2.waves).map ExecRecord.name).count
          (([resA2, resB2].getD 1 dummyRes).name) = 1
      ∧ ∃ recA ∈ List.join outC2.waves,
          recA.name = ([resA2, resB2].getD 0 dummyRes).name
          ∧ (outC2.res.getD 0 dummyRes).fields
              = (([resA2, resB2].getD 0 dummyRes).upd recA.updInput).1 :=
  createSync_value_propagation pickFst [resA2, resB2] graphAB outC2
    (by decide) (by decide) rfl rfl rfl 0 1 (by decide) (by decide)
    ⟨"a", "f", "t"⟩ (by decide) (by decide) (by decide) (by decide) (by decide)

/-! ### Clean acyclic construction (claim C1) -/

theorem resIndex_foldl_keep (res : List Res) (x : String) (j : Nat) :
    ∀ l : List Nat, (∀ i ∈ l, (res.getD i dummyRes).name = x → i = j) →
      l.foldl (fun acc i => if (res.getD i dummyRes).name = x then i else acc) j = j := by
  intro l
  induction l with
  | nil => intro _; rfl
  | cons a t ih =>
    intro h
    rw [List.foldl_cons]
    by_cases ha : (res.getD a dummyRes).name = x
    · rw [if_pos ha, h a (List.mem_cons_self a t) ha]
      exact ih (fun i hi => h i (List.mem_cons_of_mem a hi))
    · rw [if_neg ha]
      exact ih (fun i hi => h i (List.mem_cons_of_mem a hi))

theorem resIndex_foldl_mem (res : List Res) (x : String) (j : Nat)
    (hj : (res.getD j dummyRes).name = x) :
    ∀ (l : List Nat) (acc : Nat), j ∈ l →
      (∀ i ∈ l, (res.getD i dummyRes).name = x → i = j) →
      l.foldl (fun acc i => if (res.getD i dummyRes).name = x then i else acc) acc = j := by
  intro l
  induction l with
  | nil => intro acc hmem; cases hmem
  | cons a t ih =>
    intro acc hmem h
    rw [List.foldl_cons]
    by_cases ha : (res.getD a dummyRes).name = x
    · rw [if_pos ha, h a (List.mem_cons_self a t) ha]
      exact resIndex_foldl_keep res x j t (fun i hi => h i (List.mem_cons_of_mem a hi))
    · rw [if_neg ha]
      have hjt : j ∈ t := by
        rcases List.mem_cons.mp hmem with heq | h2
        · exact absurd (by rw [← heq]; exact hj) ha
        · exact h2
      exact ih acc hjt (fun i hi => h i (List.mem_cons_of_mem a hi))

/-- With distinct resource names, `indexes[name]` resolves the name of
the `j`-th resource to `j`. -/
theorem resIndex_eq {res : List Res} (hnd : (res.map Res.name).Nodup)
    {j : Nat} (hj : j < res.length) :
    resIndex res ((res.getD j dummyRes).name) = j := by
  unfold resIndex
  exact resIndex_foldl_mem res _ j rfl (List.range res.length) 0
    (List.mem_range.mpr hj)
    (fun i hi he => nameIdx_inj hnd (List.mem_range.mp hi) hj he)

theorem buildGraph_v (res : List Res) : (buildGraph res).v = res.length := rfl

theorem buildGraph_adj (res : List Res) {j : Nat} (hj : j < res.length) :
    adjascent (buildGraph res) j
      = (List.range res.length).bind (fun i =>
          (((res.getD i dummyRes).deps.filter
              (fun dep => resIndex res dep.fromResource == j)).map (fun _ => i))) := by
  unfold adjascent buildGraph
  dsimp only
  rw [getD_eq_get _ _ (by rw [List.length_map, List.length_range]; exact hj)]
  rw [List.get_map]
  dsimp only
  rw [List.get_range]

theorem buildGraph_WF (res : List Res) : (buildGraph res).WF := by
  constructor
  · show ((List.range res.length).map _).length = res.length
    rw [List.length_map, List.length_range]
  · intro l hl t ht
    show t < res.length
    obtain ⟨j, _, hlj⟩ := List.mem_map.mp hl
    rw [← hlj] at ht
    obtain ⟨i, hi, hti⟩ := List.mem_bind.mp ht
    obtain ⟨dep, _, hdi⟩ := List.mem_map.mp hti
    rw [← hdi]
    exact List.mem_range.mp hi

theorem buildGraph_edge (res : List Res) {i : Nat} (hi : i < res.length)
    {dep : Dependency} (hdep : dep ∈ (res.getD i dummyRes).deps)
    (hj : resIndex res dep.fromResource < res.length) :
    Edge (buildGraph res) (resIndex res dep.fromResource) i := by
  unfold Edge
  rw [buildGraph_adj res hj]
  rw [List.mem_bind]
  refine ⟨i, List.mem_range.mpr hi, ?_⟩
  rw [List.mem_map]
  refine ⟨dep, ?_, rfl⟩
  rw [List.mem_filter]
  exact ⟨hdep, by simp⟩

/-- A passing `check` guarantees every declared dependency's source
name is carried by some resource of the set. -/
theorem check_dep_exists {res0 : List Res} (hnd : (res0.map Res.name).Nodup)
    (hcheck : check res0 = none) {i : Nat} (hi : i < res0.length)
    {dep : Dependency} (hdep : dep ∈ (res0.getD i dummyRes).deps) :
    ∃ j, j < res0.length ∧ (res0.getD j dummyRes).name = dep.fromResource := by
  unfold check at hcheck
  rw [cacheOf_eq_self hnd] at hcheck
  have h1 := (firstSome_eq_none.mp hcheck) _
    (List.mem_map_of_mem _ (getD_mem res0 i dummyRes hi))
  have h2 := (firstSome_eq_none.mp h1) _ (List.mem_map_of_mem _ hdep)
  unfold checkDep at h2
  by_cases hp : (dep.toField = "" ∧ dep.fromField ≠ "") ∨ (dep.toField ≠ "" ∧ dep.fromField = "")
  · rw [if_pos hp] at h2
    exact Option.noConfusion h2
  · rw [if_neg hp] at h2
    cases hcf : checkField (res0.getD i dummyRes) dep.toField with
    | some e =>
      rw [hcf] at h2
      exact Option.noConfusion h2
    | none =>
      rw [hcf] at h2
      dsimp only at h2
      cases hfind : res0.find? (fun s => s.name == dep.fromResource) with
      | none =>
        rw [hfind] at h2
        exact Option.noConfusion h2
      | some fromRes =>
        have hmem := List.mem_of_find?_eq_some hfind
        have hname : fromRes.name = dep.fromResource := by
          have := List.find?_some hfind
          simpa using this
        obtain ⟨⟨j, hjl⟩, hg⟩ := List.mem_iff_get.mp hmem
        exact ⟨j, hjl, by rw [getD_eq_get res0 dummyRes hjl, hg, hname]⟩

theorem indexOf_get_of_nodup {l : List Nat} (hnd : l.Nodup) {k : Nat} (h : k < l.length) :
    l.indexOf (l.get ⟨k, h⟩) = k := by
  have hmem : l.get ⟨k, h⟩ ∈ l := List.get_mem _ _ _
  have hlt : l.indexOf (l.get ⟨k, h⟩) < l.length := List.indexOf_lt_length.mpr hmem
  have hg : l.get ⟨l.indexOf (l.get ⟨k, h⟩), hlt⟩ = l.get ⟨k, h⟩ := List.indexOf_get _
  have hfe := (List.Nodup.get_inj_iff hnd).mp hg
  have hv := congrArg Fin.val hfe
  simpa using hv

theorem get_mem_take {l : List Nat} {k p : Nat} (hp : p < k) (hpl : p < l.length) :
    l.get ⟨p, hpl⟩ ∈ l.take k := by
  have hlen : p < (l.take k).length := by rw [List.length_take]; omega
  have h1 : (l.take k).get ⟨p, hlen⟩ = l.get ⟨p, hpl⟩ := by
    simp [List.getElem_take]
  rw [← h1]
  exact List.get_mem _ _ _

/-- In a topological order of the (validated) dependency graph, when
the first `k` positions are built, the resource at position `k` has
all its dependency sources built: every source sits strictly earlier
in the order. -/
theorem c1_ready (res0 : List Res) (ordered : List Nat)
    (hnd : (res0.map Res.name).Nodup) (hcheck : check res0 = none)
    (hacyc : Acyclic (buildGraph res0))
    (htopo : ∀ u w, Edge (buildGraph res0) u w → ordered.indexOf u < ordered.indexOf w)
    (hperm : ordered.Perm (List.range res0.length))
    {k : Nat} (hk : k < ordered.length) :
    (res0.getD (ordered.get ⟨k, hk⟩) dummyRes).deps.all
      (fun dep => builtName res0 (ordered.take k) dep.fromResource) = true := by
  have hordnd : ordered.Nodup := hperm.nodup_iff.mpr (List.nodup_range _)
  rw [List.all_eq_true]
  intro dep hdep
  have hi : ordered.get ⟨k, hk⟩ < res0.length :=
    List.mem_range.mp (hperm.mem_iff.mp (List.get_mem _ _ _))
  obtain ⟨j, hjn, hjname⟩ := check_dep_exists hnd hcheck hi hdep
  have hri : resIndex res0 dep.fromResource = j := by
    rw [← hjname]
    exact resIndex_eq hnd hjn
  have hedge : Edge (buildGraph res0) j (ordered.get ⟨k, hk⟩) := by
    have h1 := buildGraph_edge res0 hi hdep (by rw [hri]; exact hjn)
    rw [hri] at h1
    exact h1
  have hne : j ≠ ordered.get ⟨k, hk⟩ := by
    intro he
    exact hacyc _ (Relation.TransGen.single (he ▸ hedge))
  have hlt := htopo j _ hedge
  rw [indexOf_get_of_nodup hordnd hk] at hlt
  have hjmem : j ∈ ordered := hperm.mem_iff.mpr (List.mem_range.mpr hjn)
  have hjlt : ordered.indexOf j < ordered.length := List.indexOf_lt_length.mpr hjmem
  have hjget : ordered.get ⟨ordered.indexOf j, hjlt⟩ = j := List.indexOf_get _
  have hjtake : j ∈ ordered.take k := by
    rw [← hjget]
    exact get_mem_take hlt hjlt
  exact (builtName_iff _ _ _).mpr ⟨j, hjtake, hjname⟩

/-- Loop invariant for the clean acyclic run: shapes preserved, the
built indices are exactly the first `k` positions of the topological
order, the execution records trace those indices, every non-empty
recorded status is in the status map under the resource name, and one
wave has run per strict growth of the prefix. -/
def C1Inv (res0 : List Res) (ordered : List Nat) (res : List Res) (done : List Nat)
    (status : List (String × String)) (waves : List (List ExecRecord)) (k : Nat) : Prop :=
  SameShape res0 res
  ∧ k ≤ ordered.length
  ∧ done = ordered.take k
  ∧ (List.join waves).map ExecRecord.name
      = done.map (fun j => (res0.getD j dummyRes).name)
  ∧ (∀ rec ∈ List.join waves, rec.status ≠ "" → status.lookup rec.name = some rec.status)
  ∧ waves.length ≤ k

theorem c1_step (res0 : List Res) (ordered : List Nat)
    (hnd : (res0.map Res.name).Nodup) (hcheck : check res0 = none)
    (hacyc : Acyclic (buildGraph res0))
    (htopo : ∀ u w, Edge (buildGraph res0) u w → ordered.indexOf u < ordered.indexOf w)
    (hperm : ordered.Perm (List.range res0.length))
    (hnoerr : ∀ j < res0.length, ∀ fs, (((res0.getD j dummyRes).upd fs)).2.2 = none)
    (res : List Res) (status : List (String × String)) (waves : List (List ExecRecord))
    (k : Nat) (hk : k < ordered.length)
    (hinv : C1Inv res0 ordered res (ordered.take k) status waves k)
    (el : List Nat) (hel : el = scanExec res (ordered.take k) ordered)
    (wv : List Res × List ExecRecord) (hwv : wv = runWave res (ordered.take k) el) :
    1 ≤ el.length ∧ k + el.length ≤ ordered.length
    ∧ waveErrs wv.2 = []
    ∧ doneAdditions el wv.2 = el
    ∧ ordered.take k ++ el = ordered.take (k + el.length)
    ∧ C1Inv res0 ordered wv.1 (ordered.take (k + el.length))
        (statusAdd status wv.2) (waves ++ [wv.2]) (k + el.length) := by
  obtain ⟨hshape, hkle, _, hmapn, hstok, hwlen⟩ := hinv
  have hordnd : ordered.Nodup := hperm.nodup_iff.mpr (List.nodup_range _)
  have hordlt : ∀ i ∈ ordered, i < res0.length := fun i hi =>
    List.mem_range.mp (hperm.mem_iff.mp hi)
  have htdisj : ∀ i ∈ ordered.drop k, i ∉ ordered.take k := by
    have h2 := hordnd
    rw [← List.take_append_drop k ordered, List.nodup_append] at h2
    exact fun i hi hit => h2.2.2 hit hi
  have htklt : ∀ i ∈ ordered.take k, i < res0.length := fun i hi =>
    hordlt i (List.mem_of_mem_take hi)
  have hdplt : ∀ i ∈ ordered.drop k, i < res0.length := fun i hi =>
    hordlt i (List.mem_of_mem_drop hi)
  have hnb : ∀ i ∈ ordered.drop k,
      builtName res0 (ordered.take k) ((res0.getD i dummyRes).name) = false := by
    intro i hi
    by_contra hb
    rw [Bool.not_eq_false] at hb
    obtain ⟨j, hjmem, hjname⟩ := (builtName_iff _ _ _).mp hb
    have hji : j = i := nameIdx_inj hnd (htklt j hjmem) (hdplt i hi) hjname
    rw [hji] at hjmem
    exact htdisj i hi hjmem
  have hscan : scanExec res (ordered.take k) ordered
      = (ordered.drop k).takeWhile (fun i => (res0.getD i dummyRes).deps.all
          (fun dep => builtName res0 (ordered.take k) dep.fromResource)) := by
    rw [scanExec_congr hshape _ ordered]
    have hsplit : scanExec res0 (ordered.take k) ordered
        = scanExec res0 (ordered.take k) (ordered.take k ++ ordered.drop k) := by
      rw [List.take_append_drop]
    rw [hsplit, scanExec_skip res0 _ _ _ (fun i hi => builtName_of_mem res0 _ i hi)]
    exact scanExec_collect res0 _ _ hnb
  have hdropc : ordered.drop k = ordered.get ⟨k, hk⟩ :: ordered.drop (k + 1) :=
    List.drop_eq_get_cons hk
  have hphead := c1_ready res0 ordered hnd hcheck hacyc htopo hperm hk
  have helval : el = ordered.get ⟨k, hk⟩ :: ((ordered.drop (k + 1)).takeWhile
      (fun i => (res0.getD i dummyRes).deps.all
        (fun dep => builtName res0 (ordered.take k) dep.fromResource))) := by
    rw [hel, hscan, hdropc, List.takeWhile_cons, if_pos hphead]
  have hel1 : 1 ≤ el.length := by
    rw [helval]
    simp
  have heltake : el = (ordered.drop k).take el.length := by
    rw [hel, hscan]
    exact takeWhile_eq_take _ _
  have helsubd : ∀ i ∈ el, i ∈ ordered.drop k := by
    intro i hi
    rw [heltake] at hi
    exact List.mem_of_mem_take hi
  have hkm : k + el.length ≤ ordered.length := by
    have hsl : el.length ≤ (ordered.drop k).length := by
      rw [hel, hscan]
      exact List.Sublist.length_le (List.takeWhile_sublist _)
    rw [List.length_drop] at hsl
    omega
  have happend : ordered.take k ++ el = ordered.take (k + el.length) := by
    rw [List.take_add, ← heltake]
  have helnd : el.Nodup := by
    have hsub : List.Sublist el ordered := by
      rw [hel]
      exact scanExec_sublist res _ ordered
    exact hordnd.sublist hsub
  have hellt0 : ∀ i ∈ el, i < res0.length := fun i hi => hdplt i (helsubd i hi)
  have hellt : ∀ i ∈ el, i < res.length := by
    rw [hshape.1]
    exact hellt0
  obtain ⟨hspec1, hspec2⟩ := runWaveGo_spec (mkCache res (ordered.take k)) el res helnd hellt
  have hwv2 : wv.2 = el.map
      (fun i => (execute (res.getD i dummyRes) (mkCache res (ordered.take k))).2) := by
    rw [hwv]
    exact hspec1
  have herrnone : ∀ rec ∈ wv.2, rec.err = none := by
    intro rec hrec
    rw [hwv2] at hrec
    obtain ⟨i, hiel, hie⟩ := List.mem_map.mp hrec
    rw [← hie, execute_rec_err, (hshape.2 i).2.2.1]
    exact hnoerr i (hellt0 i hiel) _
  have hwerrs : waveErrs wv.2 = [] := waveErrs_nil_of_none _ herrnone
  have hda : doneAdditions el wv.2 = el :=
    doneAdditions_all_ok el wv.2 (by rw [hwv2, List.length_map]) herrnone
  have hshape' : SameShape res0 wv.1 := by
    rw [hwv]
    exact runWaveGo_sameShape _ el res0 res hshape
  have hjoin : List.join (waves ++ [wv.2]) = List.join waves ++ wv.2 := by simp
  have hwvnames : wv.2.map ExecRecord.name
      = el.map (fun j => (res0.getD j dummyRes).name) := by
    rw [hwv2, List.map_map]
    apply List.map_congr_left
    intro i _
    show (execute (res.getD i dummyRes) (mkCache res (ordered.take k))).2.name = _
    rw [execute_rec_name]
    exact (hshape.2 i).1
  refine ⟨hel1, hkm, hwerrs, hda, happend, hshape', hkm, rfl, ?_, ?_, ?_⟩
  · rw [hjoin, List.map_append, hmapn, hwvnames, ← List.map_append, happend]
  · intro rec hrec hst
    rw [hjoin] at hrec
    rcases List.mem_append.mp hrec with hold | hnew
    · rw [statusAdd_lookup_notin wv.2 status rec.name ?_]
      · exact hstok rec hold hst
      · intro r2 hr2 he2
        have hr2n : r2.name ∈ wv.2.map ExecRecord.name := List.mem_map_of_mem _ hr2
        rw [hwvnames] at hr2n
        obtain ⟨i, hiel, hif⟩ := List.mem_map.mp hr2n
        have hrn : rec.name ∈ (List.join waves).map ExecRecord.name :=
          List.mem_map_of_mem _ hold
        rw [hmapn] at hrn
        obtain ⟨j, hjtk, hjf⟩ := List.mem_map.mp hrn
        have hij : i = j := by
          apply nameIdx_inj hnd (hellt0 i hiel) (htklt j hjtk)
          rw [hif, hjf, he2]
        rw [hij] at hiel
        exact htdisj j (helsubd j hiel) hjtk
    · apply statusAdd_lookup_mem wv.2 status ?_ rec hnew hst
      rw [hwvnames]
      exact helnd.map_on (fun x hx y hy he =>
        nameIdx_inj hnd (hellt0 x hx) (hellt0 y hy) he)
  · rw [List.length_append]
    simp only [List.length_cons, List.length_nil]
    omega

theorem c1_loop (res0 : List Res) (ordered : List Nat)
    (hnd : (res0.map Res.name).Nodup) (hcheck : check res0 = none)
    (hacyc : Acyclic (buildGraph res0))
    (htopo : ∀ u w, Edge (buildGraph res0) u w → ordered.indexOf u < ordered.indexOf w)
    (hperm : ordered.Perm (List.range res0.length))
    (hnoerr : ∀ j < res0.length, ∀ fs, (((res0.getD j dummyRes).upd fs)).2.2 = none) :
    ∀ (fuel : Nat) (res : List Res) (done : List Nat) (status : List (String × String))
      (left : Int) (waves : List (List ExecRecord)) (k : Nat),
      C1Inv res0 ordered res done status waves k →
      left = (ordered.length : Int) - k →
      ordered.length ≤ k + fuel →
      (createLoop ordered fuel res done status left waves).err = none
      ∧ (createLoop ordered fuel res done status left waves).left = 0
      ∧ (createLoop ordered fuel res done status left waves).waves.length ≤ ordered.length
      ∧ (∀ rec ∈ List.join (createLoop ordered fuel res done status left waves).waves,
          rec.status ≠ "" →
          (createLoop ordered fuel res done status left waves).status.lookup rec.name
            = some rec.status)
      ∧ (List.join (createLoop ordered fuel res done status left waves).waves).map
            ExecRecord.name
          = ordered.map (fun j => (res0.getD j dummyRes).name) := by
  intro fuel
  induction fuel with
  | zero =>
    intro res done status left waves k hinv hleft hfuel
    obtain ⟨hshape, hkle, hdone, hmapn, hstok, hwlen⟩ := hinv
    have hkeq : k = ordered.length := by omega
    rw [createLoop_zero]
    dsimp only
    rw [if_neg (by omega)]
    refine ⟨rfl, by omega, by omega, hstok, ?_⟩
    rw [hdone, hkeq, List.take_length] at hmapn
    exact hmapn
  | succ n ih =>
    intro res done status left waves k hinv hleft hfuel
    rw [createLoop_succ]
    by_cases hl : left ≤ 0
    · rw [if_pos hl]
      dsimp only
      obtain ⟨hshape, hkle, hdone, hmapn, hstok, hwlen⟩ := hinv
      have hkeq : k = ordered.length := by omega
      refine ⟨rfl, by omega, by omega, hstok, ?_⟩
      rw [hdone, hkeq, List.take_length] at hmapn
      exact hmapn
    · rw [if_neg hl]
      dsimp only
      have hk : k < ordered.length := by
        have hkle := hinv.2.1
        omega
      have hdone := hinv.2.2.1
      subst hdone
      obtain ⟨h1, h2, h3, h4, h5, h6⟩ := c1_step res0 ordered hnd hcheck hacyc htopo hperm
        hnoerr res status waves k hk hinv _ rfl _ rfl
      rw [if_pos (by rw [h3]; rfl)]
      rw [h4, h5, h3]
      apply ih _ _ _ _ _ (k + (scanExec res (ordered.take k) ordered).length) h6
      · simp only [List.length_nil]
        push_cast
        omega
      · omega

/-- Claim C1: for a resource set with distinct names that passes
validation, whose dependency graph (as assembled by the modelled
`buildGraph`, see its doc comment) is acyclic, and none of whose
updates can return an error, construction `Sync` returns: no error,
`resourcesLeft = 0`, at most `len(resources)` waves were run, every
resource's `Update` was invoked (it has an execution record), and
every non-empty returned status string is in the returned status map
under the resource's name. -/
theorem sync_acyclic_clean (pick : List (Nat × Int) → Nat) (res0 : List Res)
    (hnd : (res0.map Res.name).Nodup)
    (hcheck : check res0 = none)
    (hacyc : Acyclic (buildGraph res0))
    (hnoerr : ∀ j < res0.length, ∀ fs, (((res0.getD j dummyRes).upd fs)).2.2 = none) :
    ∃ out, Sync pick res0 false = some out
      ∧ out.err = none
      ∧ out.left = 0
      ∧ out.waves.length ≤ res0.length
      ∧ (∀ rec ∈ List.join out.waves, rec.status ≠ "" →
          out.status.lookup rec.name = some rec.status)
      ∧ (∀ j < res0.length, ∃ rec ∈ List.join out.waves,
          rec.name = (res0.getD j dummyRes).name) := by
  have hwf := buildGraph_WF res0
  have hv : (buildGraph res0).v = res0.length := buildGraph_v res0
  obtain ⟨ordered, hsort, hperm0, htopo⟩ := sort_acyclic_topo (buildGraph res0) pick hwf hacyc
  have hperm : ordered.Perm (List.range res0.length) := by
    rw [← hv]
    exact hperm0
  have hlen : ordered.length = res0.length := by
    rw [hperm.length_eq, List.length_range]
  have hcs : createSync pick res0 (buildGraph res0)
      = some (createLoop ordered ordered.length res0 [] [] (ordered.length : Int) []) := by
    unfold createSync
    rw [hsort]
  have hbase : C1Inv res0 ordered res0 [] [] [] 0 := by
    refine ⟨sameShape_refl res0, Nat.zero_le _, rfl, rfl, ?_, Nat.le_refl 0⟩
    intro rec hrec
    simp at hrec
  obtain ⟨he, hl0, hwle, hst, hm⟩ := c1_loop res0 ordered hnd hcheck hacyc htopo hperm
    hnoerr ordered.length res0 [] [] (ordered.length : Int) [] 0 hbase (by simp) (by omega)
  refine ⟨⟨(createLoop ordered ordered.length res0 [] [] (ordered.length : Int) []).status,
    (createLoop ordered ordered.length res0 [] [] (ordered.length : Int) []).err,
    (createLoop ordered ordered.length res0 [] [] (ordered.length : Int) []).res,
    (createLoop ordered ordered.length res0 [] [] (ordered.length : Int) []).waves,
    [],
    (createLoop ordered ordered.length res0 [] [] (ordered.length : Int) []).left⟩,
    ?_, he, hl0, by rw [← hlen]; exact hwle, hst, ?_⟩
  · unfold Sync
    rw [hcheck]
    dsimp only
    rw [hcs, if_neg (by decide)]
  · intro j hj
    have hjord : j ∈ ordered := hperm.mem_iff.mpr (List.mem_range.mpr hj)
    have hfm : (res0.getD j dummyRes).name
        ∈ ordered.map (fun j => (res0.getD j dummyRes).name) :=
      List.mem_map_of_mem _ hjord
    rw [← hm] at hfm
    obtain ⟨rec, hrecm, hrecn⟩ := List.mem_map.mp hfm
    exact ⟨rec, hrecm, hrecn⟩

/-- Witness for claim C1 on the concrete two-resource chain. -/
theorem sync_acyclic_clean_witness :
    ∃ out, Sync pickFst [resA2, resB2] false = some out
      ∧ out.err = none
      ∧ out.left = 0
      ∧ out.waves.length ≤ ([resA2, resB2] : List Res).length
      ∧ (∀ rec ∈ List.join out.waves, rec.status ≠ "" →
          out.status.lookup rec.name = some rec.status)
      ∧ (∀ j < ([resA2, resB2] : List Res).length, ∃ rec ∈ List.join out.waves,
          rec.name = (([resA2, resB2] : List Res).getD j dummyRes).name) :=
  sync_acyclic_clean pickFst [resA2, resB2] (by decide) (by decide)
    (acyclic_of_increasing _ (by decide))
    (by
      intro j hj fs
      rcases j with _ | _ | j
      · rfl
      · rfl
      · have h2 : j + 1 + 1 < 2 := hj
        omega)
